import Mathlib

/-!
Verification of the `libside` requirement-graph engine.

The definitions below are shallow embeddings of the Rust source:
* `GraphNode`, `Graph`, `Graph.add`, `Graph.invert`, `Graph.retain`,
  `extractUndoGraph` and the topological walker embed
  `src/libside/src/graph.rs`.
* `ReqOps`, `runUndo`, `stepTodo`, `runTodo`, `runSeq` embed
  `ApplySequence::run` from the same file; host calls are recorded in an
  event trace.
* `Kind`, `SumVal`, `encodeSum`, `decodeSum` embed the tagged-union
  (de)serialization of `src/libside/src/requirements.rs`.
* `SysOps`, `dirsInitImpl` and the model filesystem embed
  `Dirs::initialize` from `src/libside/src/lib.rs` together with the two
  `dir_is_empty` implementations of `src/libside/src/system.rs`.
-/

section GraphDefs

variable {R : Type}

/-- Node of a requirement graph (`GraphNode<R>` in `graph.rs`). -/
structure GraphNode (R : Type) where
  requirement : R
  preconditions : List Nat
  pre_existing : Bool
deriving DecidableEq

/-- Requirement graph (`Graph<R, State>` in `graph.rs`; the phantom state
tag carries no data and is dropped). -/
structure Graph (R : Type) where
  nodes : List (GraphNode R)
deriving DecidableEq

instance [Inhabited R] : Inhabited (GraphNode R) :=
  ⟨{ requirement := default, preconditions := [], pre_existing := false }⟩

/-- `Graph::add`: append a node holding exactly the supplied precondition
indices, `pre_existing = false`; returns the new graph and the index of
the added node. -/
def Graph.add (g : Graph R) (requirement : R) (depends_on : List Nat) :
    Graph R × Nat :=
  (⟨g.nodes ++ [⟨requirement, depends_on, false⟩]⟩, g.nodes.length)

/-- Invariant I1 of the spec: every precondition index is smaller than the
owning node's index. -/
def i1B (g : Graph R) : Bool :=
  g.nodes.enum.all (fun p => p.2.preconditions.all (fun q => q < p.1))

/-- The preconditions computed by `Graph::invert` for original node
`index`: positions, in the reversed node list, of the nodes that depend
on `index`. -/
def invertPreconditions (nodes : List (GraphNode R)) (index : Nat) : List Nat :=
  ((nodes.reverse.enum).filter
    (fun p => p.2.preconditions.contains index)).map Prod.fst

/-- `Graph::invert`: reverse every edge and reverse the node order,
keeping each node's requirement and `pre_existing` flag. -/
def Graph.invert (g : Graph R) : Graph R :=
  ⟨((g.nodes.enum).map (fun p =>
      { requirement := p.2.requirement
        preconditions := invertPreconditions g.nodes p.1
        pre_existing := p.2.pre_existing })).reverse⟩

/-- The `mapping` vector built at the start of `Graph::retain`: position
`i` holds `some c` when node `i` is kept and `c` nodes were kept before
it (the counter in the source), `none` when node `i` is removed. -/
def buildMapping (flags : List Bool) : List (Option Nat) :=
  (List.range flags.length).map (fun i =>
    if flags.getD i false then some ((flags.take i).count true) else none)

/-- Worklist loop of `Graph::collect_inherited_preconditions`: pop a node,
push its unmapped precondition nodes back on the stack, append the mapped
ones to the result.  The stack's head is its top (Rust pushes/pops at the
vector's end).  `fuel` bounds the number of pops; the caller passes enough
fuel for every graph satisfying I1. -/
def collectInheritedAux [Inhabited R] (nodes : List (GraphNode R))
    (map : List (Option Nat)) :
    Nat → List (GraphNode R) → List Nat → List Nat
  | 0, _, result => result
  | _ + 1, [], result => result
  | fuel + 1, node :: stack, result =>
    let step := node.preconditions.foldl
      (fun (acc : List (GraphNode R) × List Nat) index =>
        match map.getD index none with
        | none => (nodes.getD index default :: acc.1, acc.2)
        | some newIndex => (acc.1, acc.2 ++ [newIndex]))
      (stack, result)
    collectInheritedAux nodes map fuel step.1 step.2

/-- Precondition rewriting step of `Graph::retain` for one node: keep the
mapped preconditions (remapped to new indices), then append each index
inherited through removed preconditions unless already present. -/
def remapNode (map : List (Option Nat)) (inherited : List (List Nat))
    (node : GraphNode R) : GraphNode R :=
  let kept := node.preconditions.filter (fun pc => (map.getD pc none).isSome)
  let newPre := ((node.preconditions.filter
      (fun pc => (map.getD pc none).isNone)).map
      (fun pc => inherited.getD pc [])).flatten
  let remapped := kept.map (fun pc => (map.getD pc none).getD 0)
  { requirement := node.requirement
    preconditions :=
      newPre.foldl (fun acc n => if acc.contains n then acc else acc ++ [n])
        remapped
    pre_existing := node.pre_existing }

/-- The per-index keep decisions of a `Graph::retain` call. -/
def retainFlags (g : Graph R) (f : Nat → GraphNode R → Bool) : List Bool :=
  g.nodes.enum.map (fun p => f p.1 p.2)

/-- The `mapping` local of `Graph::retain`. -/
def retainMap (g : Graph R) (f : Nat → GraphNode R → Bool) :
    List (Option Nat) :=
  buildMapping (retainFlags g f)

/-- The `inherited_preconditions` local of `Graph::retain`: empty for
kept nodes, the collected inherited preconditions for removed ones. -/
def retainInherited [Inhabited R] (g : Graph R)
    (f : Nat → GraphNode R → Bool) : List (List Nat) :=
  ((retainMap g f).zip g.nodes).map (fun p =>
    match p.1 with
    | some _ => []
    | none =>
      collectInheritedAux g.nodes (retainMap g f) (2 ^ g.nodes.length)
        [p.2] [])

/-- `Graph::retain`: keep the nodes satisfying `f`; dependents of removed
nodes inherit their preconditions through chains of removed nodes. -/
def Graph.retain [Inhabited R] (g : Graph R)
    (f : Nat → GraphNode R → Bool) : Graph R :=
  ⟨(((g.nodes.map
        (remapNode (retainMap g f) (retainInherited g f))).enum).filter
      (fun p => ((retainMap g f).getD p.1 none).isSome)).map Prod.snd⟩

/-- Eligibility test of `GraphWalker::next` for index `i`: not yet
fulfilled, and every precondition fulfilled. -/
def eligibleB (nodes : List (GraphNode R)) (ful : List Bool) (i : Nat) : Bool :=
  match nodes[i]? with
  | some node =>
    !(ful.getD i true) && node.preconditions.all (fun p => ful.getD p false)
  | none => false

/-- The reverse scan of `GraphWalker::next`: try indices `k-1, k-2, …, 0`
and return the first eligible one (so the largest eligible index wins). -/
def findCand (nodes : List (GraphNode R)) (ful : List Bool) : Nat → Option Nat
  | 0 => none
  | k + 1 => if eligibleB nodes ful k then some k else findCand nodes ful k

/-- Repeatedly call `GraphWalker::next`, collecting the yielded indices.
The boolean is `false` exactly when the walker's final
`assert!(self.fulfilled.iter().all(|f| *f))` fails (a panic in Rust). -/
def walkAux (nodes : List (GraphNode R)) : Nat → List Bool → List Nat × Bool
  | 0, _ => ([], true)
  | fuel + 1, ful =>
    match findCand nodes ful nodes.length with
    | some i =>
      let rest := walkAux nodes fuel (ful.set i true)
      (i :: rest.1, rest.2)
    | none => ([], ful.all (fun b => b))

/-- A full walk of the graph (`GraphWalker::new` followed by `next` until
exhaustion).  `nodes.length + 1` steps always suffice because every yield
fulfils one more node. -/
def Graph.walk (g : Graph R) : List Nat × Bool :=
  walkAux g.nodes (g.nodes.length + 1) (List.replicate g.nodes.length false)

/-- `Graph::extract_undo_graph`: invert `prev`, mark the inverted nodes
that no node of `next` is affected by and that can be undone, and retain
exactly the marked ones. -/
def extractUndoGraph [Inhabited R] (affects : R → R → Bool)
    (canUndo : R → Bool) (next prev : Graph R) : Graph R :=
  let undo := prev.invert
  let nodesToUndo := undo.nodes.map (fun node =>
    !(next.nodes.any (fun newNode =>
        affects node.requirement newNode.requirement)) &&
      canUndo node.requirement)
  undo.retain (fun index _ => nodesToUndo.getD index false)

/-- `Undo` entry of an `ApplySequence`. -/
structure UndoEntry (R : Type) where
  pre_existing : Bool
  requirement : R
deriving DecidableEq

/-- `Do` entry of an `ApplySequence`. -/
structure DoEntry (R : Type) where
  requirement : R
  created_by_us : Bool
  should_exist : Bool
  source : Nat
deriving DecidableEq

/-- The undo half of `ComparedGraph::generate_application_sequence`: walk
the undo graph and record each node's `pre_existing` flag and
requirement. -/
def genUndoEntries [Inhabited R] (undoGraph : Graph R) : List (UndoEntry R) :=
  (undoGraph.walk.1).map (fun i =>
    { pre_existing := (undoGraph.nodes.getD i default).pre_existing
      requirement := (undoGraph.nodes.getD i default).requirement })

end GraphDefs

section RunDefs

variable {R σ ε : Type}

/-- Pure interpretation of the `Requirement` trait contract: each host
operation is a function on an abstract host state `σ`, failing with `ε`
(`&mut S` receivers become explicit state passing). -/
structure ReqOps (R σ ε : Type) where
  create : R → σ → Except ε σ
  modify : R → σ → Except ε σ
  delete : R → σ → Except ε σ
  preExistingDelete : R → σ → Except ε σ
  hasBeenCreated : R → σ → Except ε (Bool × σ)
  affects : R → R → Bool
  supportsModifications : R → Bool
  canUndo : R → Bool
  mayPreExist : R → Bool

/-- Host calls made by `ApplySequence::run`, in the order the source makes
them.  `record s` marks the push of source index `s` onto
`result.pre_existing`. -/
inductive Ev (R : Type) where
  | del (r : R)
  | preDel (r : R)
  | check (r : R)
  | askOverwrite (r : R)
  | create (r : R)
  | modify (r : R)
  | record (s : Nat)
deriving DecidableEq

/-- `Position` in `graph.rs`. -/
inductive Position where
  | undo (i : Nat)
  | todo (i : Nat)
deriving DecidableEq

/-- `RevertInfo` in `graph.rs`. -/
structure RevertInfo where
  position : Position
  pre_existing : List Nat
deriving DecidableEq

/-- `RequirementOperationError` in `graph.rs`. -/
inductive OpErr (ε : Type) where
  | unableToCheck (inner : ε)
  | createFailed (inner : ε)
  | modifyFailed (inner : ε)
  | deleteFailed (inner : ε)
  | preExisting
deriving DecidableEq

/-- `RunError` in `graph.rs`. -/
structure RunErr (R ε : Type) where
  requirement : R
  revert_info : RevertInfo
  inner : OpErr ε
deriving DecidableEq

/-- The undo loop of `ApplySequence::run`: route each entry to
`pre_existing_delete` or `delete` by its `pre_existing` flag; a failure
aborts with `Position::Undo(index)` and the current (never grown)
pre-existing list. -/
def runUndo (ops : ReqOps R σ ε) :
    List (UndoEntry R) → Nat → σ → List Nat →
      List (Ev R) × Except (RunErr R ε) σ
  | [], _, st, _ => ([], .ok st)
  | e :: rest, index, st, pe =>
    let ev := if e.pre_existing then Ev.preDel e.requirement
              else Ev.del e.requirement
    match (if e.pre_existing then ops.preExistingDelete e.requirement st
           else ops.delete e.requirement st) with
    | .error inner =>
      ([ev], .error ⟨e.requirement, ⟨Position.undo index, pe⟩,
        OpErr.deleteFailed inner⟩)
    | .ok st1 =>
      let rest' := runUndo ops rest (index + 1) st1 pe
      (ev :: rest'.1, rest'.2)

/-- Tail of the `has_been_created = true` branch of the todo loop: push
the entry's source when `created_by_us` is false, then call `modify`. -/
def stepModify (ops : ReqOps R σ ε) (entry : DoEntry R) (index : Nat)
    (st : σ) (pe : List Nat) (tr : List (Ev R)) :
    List (Ev R) × Except (RunErr R ε) (σ × List Nat) :=
  let pe1 := if entry.created_by_us then pe else pe ++ [entry.source]
  let tr1 := tr ++ (if entry.created_by_us then []
                    else [Ev.record entry.source]) ++
             [Ev.modify entry.requirement]
  match ops.modify entry.requirement st with
  | .error inner =>
    (tr1, .error ⟨entry.requirement, ⟨Position.todo index, pe1⟩,
      OpErr.modifyFailed inner⟩)
  | .ok st2 => (tr1, .ok (st2, pe1))

/-- One iteration of the todo loop of `ApplySequence::run`. -/
def stepTodo (ops : ReqOps R σ ε) (ask : R → Bool) (entry : DoEntry R)
    (index : Nat) (st : σ) (pe : List Nat) :
    List (Ev R) × Except (RunErr R ε) (σ × List Nat) :=
  match ops.hasBeenCreated entry.requirement st with
  | .error inner =>
    ([Ev.check entry.requirement],
     .error ⟨entry.requirement, ⟨Position.todo index, pe⟩,
       OpErr.unableToCheck inner⟩)
  | .ok (hbc, st1) =>
    if hbc then
      if !entry.should_exist && !ops.mayPreExist entry.requirement then
        if !ask entry.requirement then
          ([Ev.check entry.requirement, Ev.askOverwrite entry.requirement],
           .error ⟨entry.requirement, ⟨Position.todo index, pe⟩,
             OpErr.preExisting⟩)
        else
          stepModify ops entry index st1 pe
            [Ev.check entry.requirement, Ev.askOverwrite entry.requirement]
      else
        stepModify ops entry index st1 pe [Ev.check entry.requirement]
    else
      match ops.create entry.requirement st1 with
      | .error inner =>
        ([Ev.check entry.requirement, Ev.create entry.requirement],
         .error ⟨entry.requirement, ⟨Position.todo index, pe⟩,
           OpErr.createFailed inner⟩)
      | .ok st2 =>
        ([Ev.check entry.requirement, Ev.create entry.requirement],
         .ok (st2, pe))

/-- The todo loop of `ApplySequence::run`. -/
def runTodo (ops : ReqOps R σ ε) (ask : R → Bool) :
    List (DoEntry R) → Nat → σ → List Nat →
      List (Ev R) × Except (RunErr R ε) (σ × List Nat)
  | [], _, st, pe => ([], .ok (st, pe))
  | e :: rest, index, st, pe =>
    match stepTodo ops ask e index st pe with
    | (tr, .error er) => (tr, .error er)
    | (tr, .ok (st1, pe1)) =>
      let rest' := runTodo ops ask rest (index + 1) st1 pe1
      (tr ++ rest'.1, rest'.2)

/-- `ApplySequence::run`: the undo loop followed by the todo loop, both
starting with an empty `result.pre_existing`.  On success the returned
list is `ApplyResult::pre_existing`. -/
def runSeq (ops : ReqOps R σ ε) (ask : R → Bool)
    (undo : List (UndoEntry R)) (todo : List (DoEntry R)) (st : σ) :
    List (Ev R) × Except (RunErr R ε) (σ × List Nat) :=
  match runUndo ops undo 0 st [] with
  | (tr, .error er) => (tr, .error er)
  | (tr, .ok st1) =>
    let rest := runTodo ops ask todo 0 st1 []
    (tr ++ rest.1, rest.2)

/-- Source indices recorded as pre-existing during a trace, in order. -/
def recordsOf : List (Ev R) → List Nat
  | [] => []
  | Ev.record s :: rest => s :: recordsOf rest
  | _ :: rest => recordsOf rest

/-- The host call the undo loop makes for one entry. -/
def routeEv (e : UndoEntry R) : Ev R :=
  if e.pre_existing then Ev.preDel e.requirement else Ev.del e.requirement

end RunDefs

section JsonDefs

/-- JSON values, the target of `serde_json`. -/
inductive Json where
  | null
  | bool (b : Bool)
  | num (n : Int)
  | str (s : String)
  | arr (items : List Json)
  | obj (fields : List (String × Json))

/-- One requirement kind of the tagged union of `requirements.rs`: a
payload type with its `NAME` and its serde payload encoder/decoder (the
payload's own field handling stays abstract). -/
structure Kind where
  payload : Type
  name : String
  enc : payload → Json
  dec : Json → Option payload

/-- A value of the nested sum `Join<A, Join<B, … Unit<Z>>>`: either a
payload of the head kind (`Join::Item`) or a value of the tail sum
(`Join::Next`). -/
inductive SumVal : List Kind → Type 1 where
  | item {k : Kind} {ks : List Kind} : k.payload → SumVal (k :: ks)
  | next {k : Kind} {ks : List Kind} : SumVal ks → SumVal (k :: ks)

/-- `Serialize` for `Join`/`Unit`: a single-entry map keyed by the kind's
`NAME` with the payload as value. -/
def encodeSum : {ks : List Kind} → SumVal ks → Json
  | _, @SumVal.item k _ a => Json.obj [(k.name, k.enc a)]
  | _, @SumVal.next _ _ b => encodeSum b

/-- `JoinVisitor::decode` / `UnitVisitor::decode`: dispatch on the map
key.  The Rust `Unit` visitor panics on an unknown key; that is modelled
as `none`. -/
def decodeKey : (ks : List Kind) → String → Json → Option (SumVal ks)
  | [], _, _ => none
  | k :: ks, key, v =>
    if key == k.name then (k.dec v).map SumVal.item
    else (decodeKey ks key v).map SumVal.next

/-- `Deserialize` for the sum: `visit_map` reads the single entry of the
map and dispatches on its key (`serde_json` rejects maps the visitor does
not drain, so only single-entry maps decode). -/
def decodeSum (ks : List Kind) : Json → Option (SumVal ks)
  | Json.obj [(key, v)] => decodeKey ks key v
  | _ => none

/-- The kind name and encoded payload carried by a sum value: the single
entry of its encoding, used to compare values across reordered sums. -/
def tagOf : {ks : List Kind} → SumVal ks → String × Json
  | _, @SumVal.item k _ a => (k.name, k.enc a)
  | _, @SumVal.next _ _ b => tagOf b

/-- Field lookup in a decoded JSON object, as serde's derived
deserializers do (by name, independent of field order). -/
def jField (fields : List (String × Json)) (nm : String) : Option Json :=
  (fields.find? (fun p => p.1 == nm)).map Prod.snd

def decodeNatJ : Json → Option Nat
  | Json.num n => if n < 0 then none else some n.toNat
  | _ => none

def decodeBoolJ : Json → Option Bool
  | Json.bool b => some b
  | _ => none

def decodeNatListJ : Json → Option (List Nat)
  | Json.arr items => items.mapM decodeNatJ
  | _ => none

/-- Derived `Deserialize` for `GraphNode<R>`: read the three fields by
name; no check relates `preconditions` to anything. -/
def decodeGraphNode {R : Type} (decR : Json → Option R) (j : Json) :
    Option (GraphNode R) :=
  match j with
  | Json.obj fields => do
    let req ← (jField fields "requirement").bind decR
    let pres ← (jField fields "preconditions").bind decodeNatListJ
    let pe ← (jField fields "pre_existing").bind decodeBoolJ
    some { requirement := req, preconditions := pres, pre_existing := pe }
  | _ => none

/-- Derived `Deserialize` for `Graph<R, State>` (the unit state tag
decodes from `null`).  `StateDirs::load_install` calls exactly this and
`unwrap`s; no acyclicity or index validation follows. -/
def decodeGraph {R : Type} (decR : Json → Option R) (j : Json) :
    Option (Graph R) :=
  match j with
  | Json.obj fields => do
    let nodesJ ← jField fields "nodes"
    match nodesJ, jField fields "state" with
    | Json.arr items, some Json.null => do
      let nodes ← items.mapM (decodeGraphNode decR)
      some ⟨nodes⟩
    | _, _ => none
  | _ => none

/-- Derived `Serialize` for `GraphNode<R>`. -/
def encodeGraphNode {R : Type} (encR : R → Json) (n : GraphNode R) : Json :=
  Json.obj [("requirement", encR n.requirement),
            ("preconditions",
              Json.arr (n.preconditions.map (fun p => Json.num (Int.ofNat p)))),
            ("pre_existing", Json.bool n.pre_existing)]

/-- Derived `Serialize` for `Graph<R, State>`. -/
def encodeGraph {R : Type} (encR : R → Json) (g : Graph R) : Json :=
  Json.obj [("nodes", Json.arr (g.nodes.map (encodeGraphNode encR))),
            ("state", Json.null)]

mutual

/-- `serde_json::to_string` on the model values (strings in the model
contain no characters needing escapes). -/
def jsonToString : Json → String
  | Json.null => "null"
  | Json.bool true => "true"
  | Json.bool false => "false"
  | Json.num n => toString n
  | Json.str s => "\"" ++ s ++ "\""
  | Json.arr items => "[" ++ jsonListToString items ++ "]"
  | Json.obj fields => "\x7b" ++ jsonObjToString fields ++ "\x7d"

def jsonListToString : List Json → String
  | [] => ""
  | [j] => jsonToString j
  | j :: rest => jsonToString j ++ "," ++ jsonListToString rest

def jsonObjToString : List (String × Json) → String
  | [] => ""
  | [(k, v)] => "\"" ++ k ++ "\":" ++ jsonToString v
  | (k, v) :: rest =>
    "\"" ++ k ++ "\":" ++ jsonToString v ++ "," ++ jsonObjToString rest

end

end JsonDefs

section InitDefs

variable {σ ε R : Type}

/-- A filesystem path, as components. -/
abbrev MPath := List String

/-- Host-facing subset of the `System` trait used by `Dirs::initialize`,
as state-passing functions. -/
structure SysOps (σ ε : Type) where
  makeDirAll : MPath → σ → Except ε σ
  chmod : MPath → Nat → σ → Except ε σ
  readDir : MPath → σ → Except ε (List String × σ)
  dirIsEmpty : MPath → σ → Except ε (Bool × σ)
  putFileContents : MPath → String → σ → Except ε σ

/-- Model filesystem: the directories and files that exist, plus the last
mode set per path. -/
structure MFS where
  dirs : List MPath
  files : List (MPath × String)
  modes : List (MPath × Nat)
deriving DecidableEq

/-- Direct children of `p`: last components of the existing entries one
level below `p`. -/
def childrenOf (fs : MFS) (p : MPath) : List String :=
  ((fs.dirs ++ fs.files.map Prod.fst).filter
    (fun q => q.length == p.length + 1 && q.take p.length == p)).map
    (fun q => q.getD p.length "")

/-- Every non-empty ancestor path of `p`, including `p` itself. -/
def ancestorsOf (p : MPath) : List MPath :=
  (List.range p.length).map (fun k => p.take (k + 1))

def mMakeDirAll (p : MPath) (fs : MFS) : Except Empty MFS :=
  .ok { fs with dirs := ancestorsOf p ++ fs.dirs }

def mChmod (p : MPath) (mode : Nat) (fs : MFS) : Except Empty MFS :=
  .ok { fs with modes := (p, mode) :: fs.modes }

def mReadDir (p : MPath) (fs : MFS) : Except Empty (List String × MFS) :=
  .ok (childrenOf fs p, fs)

def mPutFile (p : MPath) (c : String) (fs : MFS) : Except Empty MFS :=
  .ok { fs with files := (p, c) :: fs.files.filter (fun q => !(q.1 == p)) }

/-- `LocalSystem::dir_is_empty` from `system.rs`, verbatim:
`Ok(fs::read_dir(path)?.count() != 0)`. -/
def localDirIsEmpty (p : MPath) (fs : MFS) : Except Empty (Bool × MFS) :=
  .ok ((childrenOf fs p).length != 0, fs)

/-- The `System` trait's default `dir_is_empty`:
`Ok(self.read_dir(path)?.is_empty())`. -/
def defaultDirIsEmpty (p : MPath) (fs : MFS) : Except Empty (Bool × MFS) :=
  .ok ((childrenOf fs p).isEmpty, fs)

/-- The host as seen through `LocalSystem`, over the model filesystem. -/
def localOps : SysOps MFS Empty :=
  { makeDirAll := mMakeDirAll, chmod := mChmod, readDir := mReadDir
    dirIsEmpty := localDirIsEmpty, putFileContents := mPutFile }

/-- The same host but with the trait-default `dir_is_empty`. -/
def defaultOps : SysOps MFS Empty :=
  { localOps with dirIsEmpty := defaultDirIsEmpty }

/-- `Dirs` from `lib.rs` (`Dirs::new` path layout). -/
structure DirsM where
  base : MPath
  packages : MPath
  installed : MPath
  chroots : MPath
  files_exposed : MPath
  files_config : MPath
  deleted : MPath
  data : MPath
  backups : MPath
  secrets : MPath
deriving DecidableEq

/-- `Dirs::new`. -/
def DirsM.new (base : MPath) : DirsM :=
  { base := base
    packages := base ++ ["packages"]
    installed := base ++ ["installed"]
    chroots := base ++ ["chroots"]
    files_exposed := base ++ ["files", "exposed"]
    files_config := base ++ ["files", "config"]
    deleted := base ++ ["files", "deleted"]
    data := base ++ ["data"]
    backups := base ++ ["backups"]
    secrets := base ++ ["secrets"] }

/-- `StateDirs` from `lib.rs`. -/
structure StateDirsM where
  version : Nat
  base : MPath
  db : MPath
  generated : MPath
  config : MPath
  chroots : MPath
  files_exposed : MPath
  data : MPath
  backup : MPath
deriving DecidableEq

/-- `Dirs::get_install`. -/
def DirsM.getInstall (d : DirsM) (version : Nat) : StateDirsM :=
  let v := toString version
  let versionedBase := d.installed ++ [v]
  { version := version
    db := versionedBase ++ ["db"]
    generated := versionedBase ++ ["generated"]
    config := d.files_config
    base := versionedBase
    chroots := d.chroots ++ [v]
    files_exposed := d.files_exposed
    data := d.data
    backup := d.backups }

/-- `Dirs::current_path`. -/
def DirsM.currentPath (d : DirsM) : MPath :=
  d.installed ++ ["current"]

/-- `DbWriteError` (the serialization-failure variant cannot occur in the
model, where `jsonToString` is total). -/
inductive DbWriteErrM (ε : Type) where
  | unableToCreateDb (p : MPath) (e : ε)
deriving DecidableEq

/-- `InitError` from `lib.rs`; `panicked` models the `.unwrap()` on
`chmod`. -/
inductive InitErrM (ε : Type) where
  | baseDirectoryNotEmpty (p : MPath)
  | unableToOpen (p : MPath) (e : ε)
  | unableToCreateDir (p : MPath) (e : ε)
  | unableToWriteCurrentVersion (p : MPath) (e : ε)
  | unableToWriteDb (e : DbWriteErrM ε)
  | panicked
deriving DecidableEq

/-- `create_dir_with_err`. -/
def createDirWithErr (ops : SysOps σ ε) (dir : MPath) (s : σ) :
    Except (InitErrM ε) σ :=
  (ops.makeDirAll dir s).mapError (InitErrM.unableToCreateDir dir)

/-- `StateDirs::create_dirs`. -/
def createStateDirs (ops : SysOps σ ε) (sd : StateDirsM) (s : σ) :
    Except (InitErrM ε) σ := do
  let s ← createDirWithErr ops sd.generated s
  createDirWithErr ops sd.chroots s

/-- `StateDirs::write_dbs` applied to `SystemState::<R>::default()` (the
empty graph), as `Dirs::initialize` calls it. -/
def writeDbs (ops : SysOps σ ε) (sd : StateDirsM) (encR : R → Json)
    (g : Graph R) (s : σ) : Except (DbWriteErrM ε) σ :=
  (ops.putFileContents sd.db (jsonToString (encodeGraph encR g)) s).mapError
    (DbWriteErrM.unableToCreateDb sd.db)

/-- `Dirs::set_current_install`. -/
def setCurrentInstall (ops : SysOps σ ε) (d : DirsM) (new : StateDirsM)
    (s : σ) : Except ε σ :=
  ops.putFileContents d.currentPath (toString new.version) s

/-- `Dirs::initialize` from `lib.rs`: create and chmod the base
directory, refuse when `dir_is_empty` reports `false`, then create the
tree, write version 0 with an empty graph and point `current` at it. -/
def dirsInitImpl (ops : SysOps σ ε) (d : DirsM) (encR : R → Json) (s : σ) :
    Except (InitErrM ε) σ := do
  let s ← createDirWithErr ops d.base s
  let s ← match ops.chmod d.base 0o700 s with
    | .ok s => pure s
    | .error _ => throw InitErrM.panicked
  let r ← (ops.dirIsEmpty d.base s).mapError (InitErrM.unableToOpen d.base)
  if !r.1 then
    throw (InitErrM.baseDirectoryNotEmpty d.base)
  else
    let s := r.2
    let s ← createDirWithErr ops d.packages s
    let s ← createDirWithErr ops d.installed s
    let s ← createDirWithErr ops d.chroots s
    let s ← createDirWithErr ops d.files_exposed s
    let s ← createDirWithErr ops d.files_config s
    let s ← createDirWithErr ops d.data s
    let s ← createDirWithErr ops d.backups s
    let s ← createDirWithErr ops d.secrets s
    let install := d.getInstall 0
    let s ← createStateDirs ops install s
    let s ← (writeDbs ops install encR ⟨[]⟩ s).mapError
      InitErrM.unableToWriteDb
    (setCurrentInstall ops d install s).mapError
      (InitErrM.unableToWriteCurrentVersion d.currentPath)

/-- Contents of the file at `p`, if any. -/
def fileAt (fs : MFS) (p : MPath) : Option String :=
  (fs.files.find? (fun q => q.1 == p)).map Prod.snd

/-- Last mode set for `p`, if any. -/
def modeAt (fs : MFS) (p : MPath) : Option Nat :=
  (fs.modes.find? (fun q => q.1 == p)).map Prod.snd

end InitDefs

section ConcreteDefs

/-- Concrete requirement for the spec's worked examples (the `Foo` of the
source's tests): `affects` compares ids, `can_undo` is a stored flag. -/
structure TestReq where
  id : Nat
  canUndo : Bool
deriving DecidableEq, Inhabited

def affectsT (a b : TestReq) : Bool := a.id == b.id

def canUndoT (r : TestReq) : Bool := r.canUndo

/-- Build a graph from requirement/precondition pairs (all
`pre_existing = false`, as `Graph::add` sets it). -/
def mkTestGraph (l : List (TestReq × List Nat)) : Graph TestReq :=
  ⟨l.map (fun p =>
    { requirement := p.1, preconditions := p.2, pre_existing := false })⟩

/-- Spec scenario 3: ROOT, A(ROOT), B(A), C(A,ROOT), END(B,C). -/
def retainScenarioGraph : Graph TestReq :=
  mkTestGraph [(⟨0, true⟩, []), (⟨1, true⟩, [0]), (⟨2, true⟩, [1]),
               (⟨3, true⟩, [1, 0]), (⟨100, true⟩, [2, 3])]

/-- Spec scenario 3 expected result: ROOT, C(ROOT), END(C,ROOT). -/
def retainScenarioExpected : Graph TestReq :=
  mkTestGraph [(⟨0, true⟩, []), (⟨3, true⟩, [0]), (⟨100, true⟩, [1, 0])]

/-- Spec scenario 4 previous graph:
ROOT, A_noUndo(ROOT), B_noUndo(ROOT), C(A,ROOT), END(B,C). -/
def teardownScenarioPrev : Graph TestReq :=
  mkTestGraph [(⟨0, true⟩, []), (⟨1, false⟩, [0]), (⟨2, false⟩, [0]),
               (⟨3, true⟩, [1, 0]), (⟨100, true⟩, [2, 3])]

/-- Trivial host for witnesses: every operation succeeds, every resource
reports as already created, modifications unsupported, `may_pre_exist`
false. -/
def opsAllOk : ReqOps Unit Unit Unit :=
  { create := fun _ s => .ok s
    modify := fun _ s => .ok s
    delete := fun _ s => .ok s
    preExistingDelete := fun _ s => .ok s
    hasBeenCreated := fun _ s => .ok (true, s)
    affects := fun _ _ => true
    supportsModifications := fun _ => false
    canUndo := fun _ => true
    mayPreExist := fun _ => false }

/-- Like `opsAllOk` but no resource exists yet. -/
def opsNotCreated : ReqOps Unit Unit Unit :=
  { opsAllOk with hasBeenCreated := fun _ s => .ok (false, s) }

/-- A kind with `Nat` payload encoded as a JSON number. -/
def natKind (nm : String) : Kind :=
  { payload := Nat
    name := nm
    enc := fun n => Json.num (Int.ofNat n)
    dec := decodeNatJ }

def fooKind : Kind := natKind "foo"

def barKind : Kind := natKind "bar"

/-- A concrete sum value of kind `foo` with payload `5`. -/
def fooVal : SumVal [fooKind, barKind] := SumVal.item (5 : Nat)

/-- Concrete base directory and layout for the registry claims. -/
def baseP : MPath := ["srv"]

def dirsEx : DirsM := DirsM.new baseP

/-- Nothing exists yet (so the base directory, once created, is empty). -/
def fsEmpty : MFS := ⟨[], [], []⟩

/-- The base directory exists and has one entry. -/
def fsNonEmpty : MFS := ⟨[baseP, baseP ++ ["junk"]], [], []⟩

/-- Payload encoder for a unit requirement type (never consulted on the
empty graph). -/
def encUnit : Unit → Json := fun _ => Json.null

end ConcreteDefs

section ProofHelpers

variable {α : Type}

/-- Proof-side view of `enumFrom s l |>.filter`: the surviving
index/value pairs, defined by direct recursion. -/
def keptList (pb : Nat → α → Bool) (s : Nat) : List α → List (Nat × α)
  | [] => []
  | x :: xs =>
    if pb s x then (s, x) :: keptList pb (s + 1) xs
    else keptList pb (s + 1) xs

/-- The requirement and `pre_existing` flag of a node (what `retain` and
`invert` keep unchanged). -/
def payloadOf {R : Type} (nd : GraphNode R) : R × Bool :=
  (nd.requirement, nd.pre_existing)

end ProofHelpers

-- ===================== theorems =====================

section InvertLemmas

variable {R : Type}

theorem invert_length (g : Graph R) :
    g.invert.nodes.length = g.nodes.length := by
  simp [Graph.invert]

theorem i1B_iff (g : Graph R) :
    i1B g = true ↔
      ∀ (i : Nat) (nd : GraphNode R), g.nodes[i]? = some nd →
        ∀ p ∈ nd.preconditions, p < i := by
  unfold i1B
  rw [List.all_eq_true]
  constructor
  · intro h i nd hnd p hp
    have hmem : (i, nd) ∈ g.nodes.enum := List.mk_mem_enum_iff_getElem?.2 hnd
    have := h _ hmem
    simp only [List.all_eq_true, decide_eq_true_eq] at this
    exact this p hp
  · intro h x hx
    obtain ⟨i, nd⟩ := x
    have hnd := List.mk_mem_enum_iff_getElem?.1 hx
    simp only [List.all_eq_true, decide_eq_true_eq]
    exact h i nd hnd

theorem invert_getElem (g : Graph R) (j : Nat) (hj : j < g.nodes.length) :
    g.invert.nodes[j]? = (g.nodes[g.nodes.length - 1 - j]?).map
      (fun nd =>
        { requirement := nd.requirement
          preconditions :=
            invertPreconditions g.nodes (g.nodes.length - 1 - j)
          pre_existing := nd.pre_existing }) := by
  unfold Graph.invert
  have hlen : (g.nodes.enum.map (fun p =>
      ({ requirement := p.2.requirement
         preconditions := invertPreconditions g.nodes p.1
         pre_existing := p.2.pre_existing } : GraphNode R))).length
      = g.nodes.length := by simp
  rw [List.getElem?_reverse (by rw [hlen]; exact hj)]
  rw [hlen, List.getElem?_map, List.getElem?_enum, Option.map_map]
  rfl

theorem mem_invertPreconditions {nodes : List (GraphNode R)} {i j' : Nat} :
    j' ∈ invertPreconditions nodes i ↔
      ∃ nd, nodes.reverse[j']? = some nd ∧ i ∈ nd.preconditions := by
  unfold invertPreconditions
  rw [List.mem_map]
  constructor
  · rintro ⟨⟨a, nd⟩, hmem, rfl⟩
    rw [List.mem_filter] at hmem
    refine ⟨nd, List.mk_mem_enum_iff_getElem?.1 hmem.1, ?_⟩
    have := hmem.2
    simpa [List.contains, List.elem_iff] using this
  · rintro ⟨nd, hget, hmem⟩
    refine ⟨(j', nd), ?_, rfl⟩
    rw [List.mem_filter]
    exact ⟨List.mk_mem_enum_iff_getElem?.2 hget, by
      simpa [List.contains, List.elem_iff] using hmem⟩

theorem mem_invertPreconditions_lt {nodes : List (GraphNode R)} {i j' : Nat}
    (h : j' ∈ invertPreconditions nodes i) : j' < nodes.length := by
  rcases mem_invertPreconditions.1 h with ⟨nd, hget, -⟩
  have := (List.getElem?_eq_some.mp hget).1
  simpa using this

theorem i1B_invert (g : Graph R) (h : i1B g = true) : i1B g.invert = true := by
  rw [i1B_iff] at h ⊢
  intro j nd hnd p hp
  have hj : j < g.invert.nodes.length := (List.getElem?_eq_some.mp hnd).1
  rw [invert_length] at hj
  rw [invert_getElem g j hj] at hnd
  rcases Option.map_eq_some'.1 hnd with ⟨nd₀, hnd₀, rfl⟩
  simp only at hp
  rcases mem_invertPreconditions.1 hp with ⟨m, hm, hmem⟩
  have hp' : p < g.nodes.length := by
    have := (List.getElem?_eq_some.mp hm).1
    simpa using this
  rw [List.getElem?_reverse (by simpa using hp')] at hm
  have := h _ _ hm _ hmem
  omega

theorem invert_edge_iff (g : Graph R) (j j' : Nat) (hj : j < g.nodes.length)
    (hj' : j' < g.nodes.length) (nd nd' : GraphNode R)
    (h : g.invert.nodes[j]? = some nd)
    (h' : g.nodes[g.nodes.length - 1 - j']? = some nd') :
    (j' ∈ nd.preconditions ↔
      (g.nodes.length - 1 - j) ∈ nd'.preconditions) := by
  rw [invert_getElem g j hj] at h
  rcases Option.map_eq_some'.1 h with ⟨nd₀, hnd₀, rfl⟩
  simp only
  rw [mem_invertPreconditions]
  constructor
  · rintro ⟨m, hm, hmem⟩
    rw [List.getElem?_reverse (by simpa using hj')] at hm
    rw [h'] at hm
    cases hm
    exact hmem
  · intro hmem
    refine ⟨nd', ?_, hmem⟩
    rw [List.getElem?_reverse (by simpa using hj')]
    exact h'

theorem invert_involution (g : Graph R) (h1 : i1B g = true) (i : Nat)
    (nd nd' : GraphNode R) (h : g.invert.invert.nodes[i]? = some nd)
    (h' : g.nodes[i]? = some nd') :
    nd.requirement = nd'.requirement ∧
      nd.pre_existing = nd'.pre_existing ∧
      ∀ p, p ∈ nd.preconditions ↔ p ∈ nd'.preconditions := by
  have hi : i < g.nodes.length := (List.getElem?_eq_some.mp h').1
  have hn : 0 < g.nodes.length := Nat.lt_of_le_of_lt (Nat.zero_le i) hi
  set n := g.nodes.length with hn_def
  have hi₂ : i < g.invert.nodes.length := by rw [invert_length]; exact hi
  rw [invert_getElem g.invert i hi₂] at h
  rw [invert_length] at h
  have hrev : n - 1 - i < n := by omega
  have hrev' : n - 1 - (n - 1 - i) = i := by omega
  rw [invert_getElem g (n - 1 - i) (by exact hrev), hrev', h'] at h
  simp only [Option.map_some'] at h
  cases h
  refine ⟨rfl, rfl, ?_⟩
  intro p
  constructor
  · intro hp
    simp only at hp
    have hplt : p < n := by
      have := mem_invertPreconditions_lt hp
      rwa [invert_length] at this
    rcases mem_invertPreconditions.1 hp with ⟨m, hm, hmem⟩
    rw [List.getElem?_reverse (by rw [invert_length]; exact hplt)] at hm
    rw [invert_length] at hm
    rw [invert_getElem g (n - 1 - p) (by omega)] at hm
    have heq : n - 1 - (n - 1 - p) = p := by omega
    rw [heq] at hm
    rcases Option.map_eq_some'.1 hm with ⟨m₀, hm₀, rfl⟩
    simp only at hmem
    rcases mem_invertPreconditions.1 hmem with ⟨q, hq, hqmem⟩
    rw [List.getElem?_reverse (by simpa using hrev)] at hq
    rw [hrev', h'] at hq
    cases hq
    exact hqmem
  · intro hp
    simp only
    have hplt : p < n := by
      have := (i1B_iff g).1 h1 i nd' h' p hp
      omega
    rw [mem_invertPreconditions]
    have hm : g.invert.nodes.reverse[p]? =
        (g.nodes[p]?).map (fun m₀ =>
          ({ requirement := m₀.requirement
             preconditions := invertPreconditions g.nodes p
             pre_existing := m₀.pre_existing } : GraphNode R)) := by
      rw [List.getElem?_reverse (by rw [invert_length]; exact hplt)]
      rw [invert_length]
      rw [invert_getElem g (n - 1 - p) (by omega)]
      have heq : n - 1 - (n - 1 - p) = p := by omega
      rw [heq]
    have hm₀ : g.nodes[p]? = some (g.nodes.get ⟨p, hplt⟩) := by
      rw [List.getElem?_eq_getElem hplt]
      rfl
    refine ⟨_, by rw [hm, hm₀]; rfl, ?_⟩
    simp only
    rw [mem_invertPreconditions]
    refine ⟨nd', ?_, hp⟩
    rw [List.getElem?_reverse (by simpa using hrev), hrev']
    exact h'

end InvertLemmas

/-- C7: `invert` reverses node order (the node at position `j` of the
inverted graph carries the requirement and `pre_existing` flag of the
node at position `n-1-j`), reverses every edge (`j'` is a precondition of
inverted node `j` iff `n-1-j` is a precondition of original node
`n-1-j'`), and — on graphs satisfying invariant I1 of the data model —
`invert (invert g)` is `g` up to node-index relabeling: same length, and
each node keeps its requirement, its `pre_existing` flag, and the same
set of precondition edges. -/
theorem claim_C7_invert_involution (R : Type) (g : Graph R) :
    (g.invert.nodes.length = g.nodes.length) ∧
    (∀ (j : Nat) (nd : GraphNode R), g.invert.nodes[j]? = some nd →
      ∃ nd₀, g.nodes[g.nodes.length - 1 - j]? = some nd₀ ∧
        nd.requirement = nd₀.requirement ∧
        nd.pre_existing = nd₀.pre_existing) ∧
    (∀ (j j' : Nat), j < g.nodes.length → j' < g.nodes.length →
      ∀ (nd nd' : GraphNode R), g.invert.nodes[j]? = some nd →
        g.nodes[g.nodes.length - 1 - j']? = some nd' →
        (j' ∈ nd.preconditions ↔
          (g.nodes.length - 1 - j) ∈ nd'.preconditions)) ∧
    (i1B g = true →
      g.invert.invert.nodes.length = g.nodes.length ∧
      ∀ (i : Nat) (nd nd' : GraphNode R),
        g.invert.invert.nodes[i]? = some nd → g.nodes[i]? = some nd' →
        nd.requirement = nd'.requirement ∧
          nd.pre_existing = nd'.pre_existing ∧
          ∀ p, p ∈ nd.preconditions ↔ p ∈ nd'.preconditions) := by
  refine ⟨invert_length g, ?_, ?_, ?_⟩
  · intro j nd h
    have hj : j < g.nodes.length := by
      have := (List.getElem?_eq_some.mp h).1
      rwa [invert_length] at this
    rw [invert_getElem g j hj] at h
    rcases Option.map_eq_some'.1 h with ⟨nd₀, hnd₀, rfl⟩
    exact ⟨nd₀, hnd₀, rfl, rfl⟩
  · intro j j' hj hj' nd nd' h h'
    exact invert_edge_iff g j j' hj hj' nd nd' h h'
  · intro h1
    constructor
    · rw [invert_length, invert_length]
    · intro i nd nd' h h'
      exact invert_involution g h1 i nd nd' h h'

section MappingLemmas

variable {α β : Type}

theorem buildMapping_length (flags : List Bool) :
    (buildMapping flags).length = flags.length := by
  simp [buildMapping]

theorem buildMapping_getD (flags : List Bool) (i : Nat) :
    (buildMapping flags).getD i none =
      if i < flags.length then
        (if flags.getD i false then some ((flags.take i).count true)
         else none)
      else none := by
  rw [List.getD_eq_getElem?_getD]
  unfold buildMapping
  rw [List.getElem?_map]
  by_cases h : i < flags.length
  · rw [List.getElem?_range h]
    simp [h]
  · rw [List.getElem?_eq_none (by simpa using Nat.le_of_not_lt h)]
    simp [h]

theorem buildMapping_isSome_iff (flags : List Bool) (i : Nat) :
    ((buildMapping flags).getD i none).isSome = true ↔
      (i < flags.length ∧ flags.getD i false = true) := by
  rw [buildMapping_getD]
  by_cases h : i < flags.length
  · by_cases hf : flags.getD i false <;> simp [h, hf]
  · simp [h]

theorem count_take_eq_countP_range (flags : List Bool) :
    ∀ d, d ≤ flags.length →
      (flags.take d).count true =
        (List.range d).countP (fun j => flags.getD j false) := by
  intro d
  induction d with
  | zero => intro _; simp
  | succ d ih =>
    intro hd
    have hd' : d < flags.length := hd
    rw [List.take_succ, List.range_succ, List.count_append,
      List.countP_append, ih (Nat.le_of_succ_le hd)]
    congr 1
    rw [List.getElem?_eq_getElem hd']
    simp only [Option.toList_some, List.countP_cons, List.countP_nil]
    rw [List.getD_eq_getElem?_getD, List.getElem?_eq_getElem hd']
    cases hb : flags[d] <;> simp [List.count_cons, hb]

theorem buildMapping_getD_some (flags : List Bool) (i : Nat)
    (hi : i < flags.length) (hf : flags.getD i false = true) :
    (buildMapping flags).getD i none =
      some ((List.range i).countP (fun j => flags.getD j false)) := by
  rw [buildMapping_getD]
  simp only [hi, hf, if_true]
  rw [count_take_eq_countP_range flags i (Nat.le_of_lt hi)]

theorem buildMapping_mono (flags : List Bool) (i j a b : Nat) (hij : i < j)
    (ha : (buildMapping flags).getD i none = some a)
    (hb : (buildMapping flags).getD j none = some b) : a < b := by
  have hia : ((buildMapping flags).getD i none).isSome = true := by
    rw [ha]; rfl
  have hja : ((buildMapping flags).getD j none).isSome = true := by
    rw [hb]; rfl
  obtain ⟨hi, hfi⟩ := (buildMapping_isSome_iff flags i).1 hia
  obtain ⟨hj, hfj⟩ := (buildMapping_isSome_iff flags j).1 hja
  rw [buildMapping_getD_some flags i hi hfi] at ha
  rw [buildMapping_getD_some flags j hj hfj] at hb
  have ha' : (List.range i).countP (fun q => flags.getD q false) = a :=
    Option.some_inj.1 ha
  have hb' : (List.range j).countP (fun q => flags.getD q false) = b :=
    Option.some_inj.1 hb
  have hsub : (List.range (i + 1)).Sublist (List.range j) :=
    List.range_sublist.mpr hij
  have hle := hsub.countP_le (fun q => flags.getD q false)
  rw [List.range_succ, List.countP_append] at hle
  have hone : (List.countP (fun q => flags.getD q false) [i]) = 1 := by
    simp only [List.countP_cons, List.countP_nil, hfi]
    simp
  omega

theorem enumFrom_filter_eq_keptList (pb : Nat → α → Bool) :
    ∀ (l : List α) (s : Nat),
      (List.enumFrom s l).filter (fun p => pb p.1 p.2) = keptList pb s l := by
  intro l
  induction l with
  | nil => intro s; rfl
  | cons x xs ih =>
    intro s
    rw [List.enumFrom_cons, List.filter_cons]
    unfold keptList
    cases hpb : pb s x <;> simp [hpb, ih (s + 1)]

theorem keptList_map (pb : Nat → Bool) (F : α → β) :
    ∀ (l : List α) (s : Nat),
      keptList (fun j _ => pb j) s (l.map F) =
        (keptList (fun j _ => pb j) s l).map (fun p => (p.1, F p.2)) := by
  intro l
  induction l with
  | nil => intro s; rfl
  | cons x xs ih =>
    intro s
    unfold keptList
    simp only [List.map_cons]
    cases hpb : pb s <;> simp [hpb, ih (s + 1)]

theorem keptList_congr (P1 P2 : Nat → α → Bool) :
    ∀ (l : List α) (s : Nat),
      (∀ d x, l[d]? = some x → P1 (s + d) x = P2 (s + d) x) →
      keptList P1 s l = keptList P2 s l := by
  intro l
  induction l with
  | nil => intro s _; rfl
  | cons x xs ih =>
    intro s h
    unfold keptList
    have h0 : P1 s x = P2 s x := by
      have := h 0 x (by simp)
      simpa using this
    have htail : keptList P1 (s + 1) xs = keptList P2 (s + 1) xs := by
      apply ih
      intro d y hy
      have := h (d + 1) y (by simpa using hy)
      have harith : s + (d + 1) = s + 1 + d := by omega
      rwa [harith] at this
    rw [h0, htail]

theorem keptList_getElem (P : Nat → α → Bool) :
    ∀ (l : List α) (s k i : Nat) (x : α),
      (keptList P s l)[k]? = some (i, x) →
      P i x = true ∧ ∃ d, d < l.length ∧ i = s + d ∧ l[d]? = some x ∧
        k = (List.range d).countP
          (fun j => ((l[j]?).map (P (s + j))).getD false) := by
  intro l
  induction l with
  | nil => intro s k i x h; simp [keptList] at h
  | cons y ys ih =>
    intro s k i x h
    unfold keptList at h
    by_cases hpb : P s y = true
    · rw [if_pos hpb] at h
      match k, h with
      | 0, h =>
        simp only [List.getElem?_cons_zero, Option.some_inj] at h
        cases h
        exact ⟨hpb, 0, by simp, by simp, by simp, by simp⟩
      | k + 1, h =>
        simp only [List.getElem?_cons_succ] at h
        obtain ⟨hP, d, hd, hi, hget, hk⟩ := ih (s + 1) k i x h
        refine ⟨hP, d + 1, by simpa using Nat.succ_lt_succ hd, by omega,
          by simpa using hget, ?_⟩
        have hshift : (List.range d).countP
            ((fun j => ((y :: ys)[j]?.map (P (s + j))).getD false) ∘
              Nat.succ) =
            (List.range d).countP
              (fun j => ((ys[j]?).map (P (s + 1 + j))).getD false) := by
          apply List.countP_congr
          intro a _
          simp only [Function.comp]
          have harith : s + (a + 1) = s + 1 + a := by omega
          rw [List.getElem?_cons_succ, harith]
        rw [List.range_succ_eq_map, List.countP_cons, List.countP_map, hshift]
        simp only [List.getElem?_cons_zero, Option.map_some', Option.getD_some,
          Nat.add_zero, hpb]
        simp only [if_true]
        omega
    · rw [if_neg hpb] at h
      obtain ⟨hP, d, hd, hi, hget, hk⟩ := ih (s + 1) k i x h
      refine ⟨hP, d + 1, by simpa using Nat.succ_lt_succ hd, by omega,
        by simpa using hget, ?_⟩
      have hpb' : P s y = false := by
        cases hv : P s y
        · rfl
        · exact absurd hv hpb
      have hshift : (List.range d).countP
          ((fun j => ((y :: ys)[j]?.map (P (s + j))).getD false) ∘
            Nat.succ) =
          (List.range d).countP
            (fun j => ((ys[j]?).map (P (s + 1 + j))).getD false) := by
        apply List.countP_congr
        intro a _
        simp only [Function.comp]
        have harith : s + (a + 1) = s + 1 + a := by omega
        rw [List.getElem?_cons_succ, harith]
      rw [List.range_succ_eq_map, List.countP_cons, List.countP_map, hshift]
      simp only [List.getElem?_cons_zero, Option.map_some', Option.getD_some,
        Nat.add_zero, hpb']
      simp only [Bool.false_eq_true, if_false]
      omega

end MappingLemmas

section RetainLemmas

variable {R : Type}

theorem retainFlags_length (g : Graph R) (f : Nat → GraphNode R → Bool) :
    (retainFlags g f).length = g.nodes.length := by
  simp [retainFlags]

theorem retainFlags_getD (g : Graph R) (f : Nat → GraphNode R → Bool)
    (i : Nat) (nd : GraphNode R) (h : g.nodes[i]? = some nd) :
    (retainFlags g f).getD i false = f i nd := by
  rw [List.getD_eq_getElem?_getD]
  unfold retainFlags
  rw [List.getElem?_map, List.getElem?_enum, h]
  rfl

theorem retainMap_length (g : Graph R) (f : Nat → GraphNode R → Bool) :
    (retainMap g f).length = g.nodes.length := by
  rw [retainMap, buildMapping_length, retainFlags_length]

theorem retainMap_isSome_eq (g : Graph R) (f : Nat → GraphNode R → Bool)
    (i : Nat) (nd : GraphNode R) (h : g.nodes[i]? = some nd) :
    ((retainMap g f).getD i none).isSome = f i nd := by
  have hi : i < g.nodes.length := (List.getElem?_eq_some.mp h).1
  rw [retainMap, buildMapping_getD]
  rw [retainFlags_length]
  simp only [hi, if_true]
  rw [retainFlags_getD g f i nd h]
  cases hv : f i nd <;> simp [hv]

theorem retain_nodes_keptList [Inhabited R] (g : Graph R)
    (f : Nat → GraphNode R → Bool) :
    (g.retain f).nodes =
      (keptList
        (fun i (_ : GraphNode R) => ((retainMap g f).getD i none).isSome) 0
        (g.nodes.map
          (remapNode (retainMap g f) (retainInherited g f)))).map
        Prod.snd := by
  unfold Graph.retain
  rw [show (g.nodes.map
      (remapNode (retainMap g f) (retainInherited g f))).enum =
      List.enumFrom 0 (g.nodes.map
        (remapNode (retainMap g f) (retainInherited g f))) from rfl]
  rw [enumFrom_filter_eq_keptList
    (fun i (_ : GraphNode R) => ((retainMap g f).getD i none).isSome)]

theorem retain_getElem [Inhabited R] (g : Graph R)
    (f : Nat → GraphNode R → Bool) (k : Nat) (nd : GraphNode R)
    (h : (g.retain f).nodes[k]? = some nd) :
    ∃ (i : Nat) (nd₀ : GraphNode R), g.nodes[i]? = some nd₀ ∧
      (retainMap g f).getD i none = some k ∧
      nd = remapNode (retainMap g f) (retainInherited g f) nd₀ := by
  rw [retain_nodes_keptList, List.getElem?_map] at h
  obtain ⟨⟨i, x⟩, hk, hsnd⟩ := Option.map_eq_some'.1 h
  obtain ⟨hP, d, hd, hi, hget, hcount⟩ := keptList_getElem _ _ 0 k i x hk
  simp only [Nat.zero_add] at hi
  subst hi
  rw [List.getElem?_map] at hget
  obtain ⟨nd₀, hnd₀, hx⟩ := Option.map_eq_some'.1 hget
  refine ⟨i, nd₀, hnd₀, ?_, by rw [← hsnd, ← hx]⟩
  have hdn : i < g.nodes.length := by simpa using hd
  have hPd : ((retainMap g f).getD i none).isSome = true := by simpa using hP
  have hPd' : ((buildMapping (retainFlags g f)).getD i none).isSome = true := by
    rw [← retainMap]
    exact hPd
  obtain ⟨hdlt, hfd⟩ := (buildMapping_isSome_iff _ i).1 hPd'
  rw [retainMap, buildMapping_getD_some _ i hdlt hfd]
  congr 1
  rw [hcount]
  apply List.countP_congr
  intro j hj
  have hjd : j < i := List.mem_range.1 hj
  have hjn : j < g.nodes.length := Nat.lt_trans hjd hdn
  have hjget : (g.nodes.map
      (remapNode (retainMap g f) (retainInherited g f)))[j]? =
      some ((g.nodes.map
        (remapNode (retainMap g f) (retainInherited g f))).get
        ⟨j, by simpa using hjn⟩) := by
    rw [List.getElem?_eq_getElem (by simpa using hjn)]
    rfl
  rw [hjget]
  simp only [Option.map_some', Option.getD_some, Nat.zero_add]
  have hm₀ : g.nodes[j]? = some (g.nodes.get ⟨j, hjn⟩) := by
    rw [List.getElem?_eq_getElem hjn]
    rfl
  rw [retainMap_isSome_eq g f j _ hm₀, retainFlags_getD g f j _ hm₀]

theorem retain_payload [Inhabited R] (g : Graph R)
    (f : Nat → GraphNode R → Bool) :
    (g.retain f).nodes.map payloadOf =
      (g.nodes.enum.filter (fun p => f p.1 p.2)).map
        (fun p => payloadOf p.2) := by
  rw [retain_nodes_keptList, List.map_map]
  rw [keptList_map (fun i => ((retainMap g f).getD i none).isSome)
    (remapNode (retainMap g f) (retainInherited g f)) g.nodes 0]
  rw [List.map_map]
  rw [show g.nodes.enum = List.enumFrom 0 g.nodes from rfl]
  rw [enumFrom_filter_eq_keptList (fun i (x : GraphNode R) => f i x)]
  rw [keptList_congr
    (fun i (_ : GraphNode R) => ((retainMap g f).getD i none).isSome)
    (fun i (x : GraphNode R) => f i x) g.nodes 0
    (by
      intro d x hx
      simp only [Nat.zero_add]
      exact retainMap_isSome_eq g f d x hx)]
  apply List.map_eq_map_iff.mpr
  intro p _
  rfl

theorem foldStep_inv [Inhabited R] (nodes : List (GraphNode R))
    (map : List (Option Nat)) (bound : Nat) (P : Nat → Prop)
    (hQ : ∀ q v, q < bound → map.getD q none = some v → P v) :
    ∀ (pres : List Nat) (stack : List (GraphNode R)) (res : List Nat)
      (jb : Nat), jb ≤ bound → jb ≤ nodes.length →
      (∀ p ∈ pres, p < jb) →
      (∀ nd ∈ stack, ∃ j, j ≤ bound ∧ nodes[j]? = some nd) →
      (∀ x ∈ res, P x) →
      (∀ nd ∈ (pres.foldl
          (fun (acc : List (GraphNode R) × List Nat) index =>
            match map.getD index none with
            | none => (nodes.getD index default :: acc.1, acc.2)
            | some newIndex => (acc.1, acc.2 ++ [newIndex]))
          (stack, res)).1,
        ∃ j, j ≤ bound ∧ nodes[j]? = some nd) ∧
      (∀ x ∈ (pres.foldl
          (fun (acc : List (GraphNode R) × List Nat) index =>
            match map.getD index none with
            | none => (nodes.getD index default :: acc.1, acc.2)
            | some newIndex => (acc.1, acc.2 ++ [newIndex]))
          (stack, res)).2, P x) := by
  intro pres
  induction pres with
  | nil => intro stack res jb _ _ _ hstack hres; exact ⟨hstack, hres⟩
  | cons p pres ih =>
    intro stack res jb hjb hjlen hp hstack hres
    rw [List.foldl_cons]
    have hplt : p < jb := hp p (List.mem_cons_self p pres)
    have hpbound : p < bound := Nat.lt_of_lt_of_le hplt hjb
    have hplen : p < nodes.length := Nat.lt_of_lt_of_le hplt hjlen
    cases hmp : map.getD p none with
    | none =>
      simp only [hmp]
      apply ih _ _ jb hjb hjlen
        (fun q hq => hp q (List.mem_cons_of_mem p hq))
      · intro nd hnd
        rcases List.mem_cons.1 hnd with rfl | hnd'
        · refine ⟨p, Nat.le_of_lt hpbound, ?_⟩
          rw [List.getD_eq_getElem?_getD, List.getElem?_eq_getElem hplen]
          rfl
        · exact hstack nd hnd'
      · exact hres
    | some v =>
      simp only [hmp]
      apply ih _ _ jb hjb hjlen
        (fun q hq => hp q (List.mem_cons_of_mem p hq)) hstack
      intro x hx
      rcases List.mem_append.1 hx with hx' | hx'
      · exact hres x hx'
      · rcases List.mem_singleton.1 hx' with rfl
        exact hQ p x hpbound hmp

theorem collectInheritedAux_mem [Inhabited R] (nodes : List (GraphNode R))
    (map : List (Option Nat)) (bound : Nat)
    (hI1 : ∀ (j : Nat) (nd : GraphNode R), nodes[j]? = some nd →
      ∀ p ∈ nd.preconditions, p < j) :
    ∀ (fuel : Nat) (stack : List (GraphNode R)) (res : List Nat),
      (∀ nd ∈ stack, ∃ j, j ≤ bound ∧ nodes[j]? = some nd) →
      ∀ x ∈ collectInheritedAux nodes map fuel stack res,
        x ∈ res ∨ ∃ q, q < bound ∧ map.getD q none = some x := by
  intro fuel
  induction fuel with
  | zero =>
    intro stack res _ x hx
    left
    simpa [collectInheritedAux] using hx
  | succ fuel ih =>
    intro stack res hstack x hx
    cases stack with
    | nil =>
      left
      simpa [collectInheritedAux] using hx
    | cons node rest =>
      rw [collectInheritedAux] at hx
      obtain ⟨j0, hj0b, hj0get⟩ := hstack node (List.mem_cons_self node rest)
      have hj0len : j0 ≤ nodes.length :=
        Nat.le_of_lt (List.getElem?_eq_some.mp hj0get).1
      have hinv := foldStep_inv nodes map bound
        (fun v => v ∈ res ∨ ∃ q, q < bound ∧ map.getD q none = some v)
        (fun q v hq hv => Or.inr ⟨q, hq, hv⟩)
        node.preconditions rest res j0 hj0b hj0len
        (hI1 j0 node hj0get)
        (fun nd hnd => hstack nd (List.mem_cons_of_mem node hnd))
        (fun v hv => Or.inl hv)
      rcases ih _ _ hinv.1 x hx with hin | hq
      · exact hinv.2 x hin
      · exact Or.inr hq

theorem dedupFold_mem :
    ∀ (l acc : List Nat) (x : Nat),
      x ∈ l.foldl
        (fun acc n => if acc.contains n then acc else acc ++ [n]) acc →
      x ∈ acc ∨ x ∈ l := by
  intro l
  induction l with
  | nil => intro acc x hx; left; simpa using hx
  | cons y ys ih =>
    intro acc x hx
    rw [List.foldl_cons] at hx
    rcases ih _ x hx with hacc | hys
    · by_cases hc : acc.contains y = true
      · rw [if_pos hc] at hacc
        exact Or.inl hacc
      · rw [if_neg hc] at hacc
        rcases List.mem_append.1 hacc with h | h
        · exact Or.inl h
        · exact Or.inr (List.mem_cons.2 (Or.inl (List.mem_singleton.1 h)))
    · exact Or.inr (List.mem_cons_of_mem y hys)

theorem dedupFold_count :
    ∀ (l acc : List Nat) (x : Nat),
      (l.foldl
        (fun acc n => if acc.contains n then acc else acc ++ [n])
        acc).count x ≤ max (acc.count x) 1 := by
  intro l
  induction l with
  | nil => intro acc x; simp
  | cons y ys ih =>
    intro acc x
    rw [List.foldl_cons]
    by_cases hc : acc.contains y = true
    · rw [if_pos hc]
      exact ih acc x
    · rw [if_neg hc]
      refine Nat.le_trans (ih _ x) ?_
      by_cases hxy : x = y
      · subst hxy
        have hnot : x ∉ acc := by
          intro hmem
          exact hc (by simpa [List.elem_iff] using hmem)
        rw [List.count_append]
        rw [List.count_eq_zero.2 hnot]
        simp
      · rw [List.count_append]
        have : List.count x [y] = 0 := by
          simp [List.count_singleton, hxy]
        omega

theorem retainInherited_getD [Inhabited R] (g : Graph R)
    (f : Nat → GraphNode R → Bool) (pc : Nat) (nd : GraphNode R)
    (h : g.nodes[pc]? = some nd)
    (hnone : (retainMap g f).getD pc none = none) :
    (retainInherited g f).getD pc [] =
      collectInheritedAux g.nodes (retainMap g f) (2 ^ g.nodes.length)
        [nd] [] := by
  have hpc : pc < g.nodes.length := (List.getElem?_eq_some.mp h).1
  rw [List.getD_eq_getElem?_getD]
  unfold retainInherited
  rw [List.getElem?_map]
  have hzip : ((retainMap g f).zip g.nodes)[pc]? =
      some (((retainMap g f).getD pc none), nd) := by
    rw [List.getElem?_zip_eq_some]
    constructor
    · rw [List.getD_eq_getElem?_getD]
      cases hmv : (retainMap g f)[pc]?
      · exfalso
        have := List.getElem?_eq_none_iff.1 hmv
        rw [retainMap_length] at this
        omega
      · simp
    · exact h
  rw [hzip]
  simp only [Option.map_some', Option.getD_some]
  rw [hnone]

theorem remapNode_preconditions_lt [Inhabited R] (g : Graph R)
    (f : Nat → GraphNode R → Bool)
    (hI1 : ∀ (j : Nat) (nd : GraphNode R), g.nodes[j]? = some nd →
      ∀ p ∈ nd.preconditions, p < j)
    (i k : Nat) (nd₀ : GraphNode R) (h0 : g.nodes[i]? = some nd₀)
    (hk : (retainMap g f).getD i none = some k) :
    ∀ p ∈ (remapNode (retainMap g f) (retainInherited g f)
        nd₀).preconditions, p < k := by
  intro p hp
  have hi : i < g.nodes.length := (List.getElem?_eq_some.mp h0).1
  unfold remapNode at hp
  simp only at hp
  rcases dedupFold_mem _ _ p hp with hbase | hnew
  · rw [List.mem_map] at hbase
    obtain ⟨pc, hpc, hval⟩ := hbase
    rw [List.mem_filter] at hpc
    obtain ⟨hpmem, hpsome⟩ := hpc
    obtain ⟨a, ha⟩ := Option.isSome_iff_exists.1 hpsome
    rw [ha] at hval
    simp only [Option.getD_some] at hval
    subst hval
    exact buildMapping_mono (retainFlags g f) pc i a k
      (hI1 i nd₀ h0 pc hpmem) ha hk
  · rw [List.mem_flatten] at hnew
    obtain ⟨lst, hlst, hplst⟩ := hnew
    rw [List.mem_map] at hlst
    obtain ⟨pc, hpc, hlst'⟩ := hlst
    rw [List.mem_filter] at hpc
    obtain ⟨hpmem, hpnone⟩ := hpc
    have hpci : pc < i := hI1 i nd₀ h0 pc hpmem
    have hpcn : pc < g.nodes.length := Nat.lt_trans hpci hi
    have hmpc : g.nodes[pc]? = some (g.nodes.get ⟨pc, hpcn⟩) := by
      rw [List.getElem?_eq_getElem hpcn]
      rfl
    have hnone : (retainMap g f).getD pc none = none :=
      Option.not_isSome_iff_eq_none.1 (by simpa using hpnone)
    rw [← hlst'] at hplst
    rw [retainInherited_getD g f pc _ hmpc hnone] at hplst
    have := collectInheritedAux_mem g.nodes (retainMap g f) pc hI1
      (2 ^ g.nodes.length) [g.nodes.get ⟨pc, hpcn⟩] []
      (by
        intro nd hnd
        rcases List.mem_singleton.1 hnd with rfl
        exact ⟨pc, Nat.le_refl pc, hmpc⟩)
      p hplst
    rcases this with h | ⟨q, hq, hqv⟩
    · simp at h
    · exact buildMapping_mono (retainFlags g f) q i p k
        (Nat.lt_trans hq hpci) hqv hk

theorem i1B_retain [Inhabited R] (g : Graph R)
    (f : Nat → GraphNode R → Bool) (h : i1B g = true) :
    i1B (g.retain f) = true := by
  rw [i1B_iff] at h ⊢
  intro k nd hnd p hp
  obtain ⟨i, nd₀, h0, hk, rfl⟩ := retain_getElem g f k nd hnd
  exact remapNode_preconditions_lt g f h i k nd₀ h0 hk p hp

end RetainLemmas

section WalkLemmas

variable {R : Type}

theorem findCand_spec (nodes : List (GraphNode R)) (ful : List Bool) :
    ∀ (k : Nat),
      (∀ i, findCand nodes ful k = some i →
        i < k ∧ eligibleB nodes ful i = true ∧
        ∀ j, i < j → j < k → eligibleB nodes ful j = false) ∧
      (findCand nodes ful k = none →
        ∀ j, j < k → eligibleB nodes ful j = false) := by
  intro k
  induction k with
  | zero =>
    refine ⟨?_, ?_⟩
    · intro i h
      simp [findCand] at h
    · intro _ j hj
      omega
  | succ k ih =>
    refine ⟨?_, ?_⟩
    · intro i h
      rw [findCand] at h
      by_cases he : eligibleB nodes ful k = true
      · rw [if_pos he] at h
        cases h
        refine ⟨Nat.lt_succ_self k, he, ?_⟩
        intro j h1 h2
        omega
      · rw [if_neg he] at h
        obtain ⟨h1, h2, h3⟩ := ih.1 i h
        refine ⟨Nat.lt_succ_of_lt h1, h2, ?_⟩
        intro j hij hjk
        by_cases hjk' : j < k
        · exact h3 j hij hjk'
        · have : j = k := by omega
          subst this
          cases hv : eligibleB nodes ful j
          · rfl
          · exact absurd hv he
    · intro h j hj
      rw [findCand] at h
      by_cases he : eligibleB nodes ful k = true
      · rw [if_pos he] at h
        cases h
      · rw [if_neg he] at h
        by_cases hjk : j < k
        · exact ih.2 h j hjk
        · have : j = k := by omega
          subst this
          cases hv : eligibleB nodes ful j
          · rfl
          · exact absurd hv he

theorem exists_eligible (nodes : List (GraphNode R)) (ful : List Bool)
    (hI1 : ∀ (j : Nat) (nd : GraphNode R), nodes[j]? = some nd →
      ∀ p ∈ nd.preconditions, p < j)
    (hlen : ful.length = nodes.length)
    (hex : ∃ j, j < nodes.length ∧ ful.getD j true = false) :
    ∃ i, i < nodes.length ∧ eligibleB nodes ful i = true := by
  classical
  have m := Nat.find hex
  obtain ⟨hmlt, hmf⟩ := Nat.find_spec hex
  refine ⟨Nat.find hex, hmlt, ?_⟩
  unfold eligibleB
  have hget : nodes[Nat.find hex]? =
      some (nodes.get ⟨Nat.find hex, hmlt⟩) := by
    rw [List.getElem?_eq_getElem hmlt]
    rfl
  rw [hget]
  rw [Bool.and_eq_true]
  constructor
  · rw [hmf]
    rfl
  · rw [List.all_eq_true]
    intro p hp
    have hplt : p < Nat.find hex :=
      hI1 (Nat.find hex) _ hget p hp
    have hnot := Nat.find_min hex hplt
    have hpn : p < nodes.length := Nat.lt_trans hplt hmlt
    have hptrue : ful.getD p true = true := by
      by_cases hv : ful.getD p true = false
      · exact absurd ⟨Nat.lt_trans hplt hmlt, hv⟩ hnot
      · cases hw : ful.getD p true
        · exact absurd hw hv
        · rfl
    have hplen : p < ful.length := by rw [hlen]; exact hpn
    rw [List.getD_eq_getElem?_getD] at hptrue ⊢
    rw [List.getElem?_eq_getElem hplen] at hptrue ⊢
    simpa using hptrue

theorem count_false_set (ful : List Bool) (i : Nat) (hi : i < ful.length)
    (hf : ful.getD i true = false) :
    (ful.set i true).count false + 1 = ful.count false := by
  have hgi : ful[i] = false := by
    rw [List.getD_eq_getElem?_getD, List.getElem?_eq_getElem hi] at hf
    simpa using hf
  have h := List.count_set true false ful i hi
  rw [hgi] at h
  simp at h
  have hpos : 0 < ful.count false :=
    List.count_pos_iff.2 (by
      rw [← hgi]
      exact List.getElem_mem hi)
  omega

theorem getD_set_ne (ful : List Bool) (i j : Nat) (b d : Bool) (h : i ≠ j) :
    (ful.set i b).getD j d = ful.getD j d := by
  rw [List.getD_eq_getElem?_getD, List.getD_eq_getElem?_getD,
    List.getElem?_set_ne h]

theorem getD_set_self (ful : List Bool) (i : Nat) (b d : Bool)
    (h : i < ful.length) : (ful.set i b).getD i d = b := by
  rw [List.getD_eq_getElem?_getD, List.getElem?_set_self h]
  rfl

theorem walkAux_spec (nodes : List (GraphNode R))
    (hI1 : ∀ (j : Nat) (nd : GraphNode R), nodes[j]? = some nd →
      ∀ p ∈ nd.preconditions, p < j) :
    ∀ (fuel : Nat) (ful : List Bool), ful.length = nodes.length →
      ful.count false ≤ fuel →
      (walkAux nodes fuel ful).2 = true ∧
      (walkAux nodes fuel ful).1.length = ful.count false ∧
      (∀ j, j ∈ (walkAux nodes fuel ful).1 ↔
        (j < nodes.length ∧ ful.getD j true = false)) ∧
      (walkAux nodes fuel ful).1.Nodup ∧
      (∀ k i, (walkAux nodes fuel ful).1[k]? = some i →
        ∀ nd, nodes[i]? = some nd → ∀ p ∈ nd.preconditions,
          ful.getD p true = true ∨
            p ∈ (walkAux nodes fuel ful).1.take k) := by
  intro fuel
  induction fuel with
  | zero =>
    intro ful hlen hcount
    have hnone : ∀ j, j < nodes.length → ful.getD j true = true := by
      intro j hj
      have hjl : j < ful.length := by rw [hlen]; exact hj
      rw [List.getD_eq_getElem?_getD, List.getElem?_eq_getElem hjl]
      cases hv : ful[j]
      · exfalso
        have : false ∈ ful := by
          rw [← hv]
          exact List.getElem_mem hjl
        have := List.count_pos_iff.2 this
        omega
      · rfl
    refine ⟨rfl, ?_, ?_, by simp [walkAux], ?_⟩
    · simp only [walkAux, List.length_nil]
      omega
    · intro j
      simp only [walkAux, List.not_mem_nil, false_iff]
      intro ⟨hj, hv⟩
      rw [hnone j hj] at hv
      cases hv
    · intro k i h
      simp [walkAux] at h
  | succ fuel ih =>
    intro ful hlen hcount
    cases hfc : findCand nodes ful nodes.length with
    | none =>
      have hall : ∀ j, j < nodes.length → ful.getD j true = true := by
        intro j hj
        by_cases hv : ful.getD j true = false
        · obtain ⟨i, hilt, hie⟩ :=
            exists_eligible nodes ful hI1 hlen ⟨j, hj, hv⟩
          have := (findCand_spec nodes ful nodes.length).2 hfc i hilt
          rw [this] at hie
          cases hie
        · cases hw : ful.getD j true
          · exact absurd hw hv
          · rfl
      have hok : ful.all (fun b => b) = true := by
        rw [List.all_eq_true]
        intro x hx
        obtain ⟨j, hjl, hjv⟩ := List.mem_iff_getElem.1 hx
        have hjn : j < nodes.length := by rw [← hlen]; exact hjl
        have := hall j hjn
        rw [List.getD_eq_getElem?_getD, List.getElem?_eq_getElem hjl] at this
        simp only [Option.getD_some] at this
        rw [← hjv]
        exact this
      have hzero : ful.count false = 0 := by
        by_cases hz : ful.count false = 0
        · exact hz
        · exfalso
          have : false ∈ ful := List.count_pos_iff.1 (by omega)
          obtain ⟨j, hjl, hjv⟩ := List.mem_iff_getElem.1 this
          have hjn : j < nodes.length := by rw [← hlen]; exact hjl
          have := hall j hjn
          rw [List.getD_eq_getElem?_getD, List.getElem?_eq_getElem hjl]
            at this
          simp only [Option.getD_some] at this
          rw [this] at hjv
          cases hjv
      refine ⟨?_, ?_, ?_, ?_, ?_⟩
      · simp only [walkAux, hfc]
        exact hok
      · simp only [walkAux, hfc, List.length_nil]
        omega
      · intro j
        simp only [walkAux, hfc, List.not_mem_nil, false_iff]
        intro ⟨hj, hv⟩
        rw [hall j hj] at hv
        cases hv
      · simp [walkAux, hfc]
      · intro k i h
        simp [walkAux, hfc] at h
    | some i =>
      obtain ⟨hilt, hie, hgreat⟩ :=
        (findCand_spec nodes ful nodes.length).1 i hfc
      have hiful : i < ful.length := by rw [hlen]; exact hilt
      have hnd : nodes[i]? = some (nodes.get ⟨i, hilt⟩) := by
        rw [List.getElem?_eq_getElem hilt]
        rfl
      have hie' := hie
      unfold eligibleB at hie'
      rw [hnd, Bool.and_eq_true] at hie'
      obtain ⟨hnotful, hpre⟩ := hie'
      have hful_i : ful.getD i true = false := by
        rw [List.getD_eq_getElem?_getD, List.getElem?_eq_getElem hiful]
          at hnotful ⊢
        simp only [Option.getD_some] at hnotful ⊢
        cases hv : ful[i]
        · rfl
        · rw [hv] at hnotful
          cases hnotful
      have hcount' := count_false_set ful i hiful hful_i
      have hlen' : (ful.set i true).length = nodes.length := by
        rw [List.length_set]
        exact hlen
      have hcle : (ful.set i true).count false ≤ fuel := by omega
      obtain ⟨ihok, ihlen, ihmem, ihnodup, ihord⟩ :=
        ih (ful.set i true) hlen' hcle
      have hstep : walkAux nodes (fuel + 1) ful =
          (i :: (walkAux nodes fuel (ful.set i true)).1,
           (walkAux nodes fuel (ful.set i true)).2) := by
        simp [walkAux, hfc]
      refine ⟨?_, ?_, ?_, ?_, ?_⟩
      · rw [hstep]
        exact ihok
      · rw [hstep]
        simp only [List.length_cons]
        omega
      · intro j
        rw [hstep]
        simp only [List.mem_cons]
        constructor
        · rintro (rfl | hj)
          · exact ⟨hilt, hful_i⟩
          · obtain ⟨hjn, hjv⟩ := (ihmem j).1 hj
            refine ⟨hjn, ?_⟩
            by_cases hij : i = j
            · subst hij
              rw [getD_set_self ful i true true hiful] at hjv
              cases hjv
            · rw [getD_set_ne ful i j true true hij] at hjv
              exact hjv
        · rintro ⟨hjn, hjv⟩
          by_cases hij : i = j
          · exact Or.inl hij.symm
          · right
            rw [ihmem j]
            refine ⟨hjn, ?_⟩
            rw [getD_set_ne ful i j true true hij]
            exact hjv
      · rw [hstep]
        refine List.nodup_cons.2 ⟨?_, ihnodup⟩
        intro hmem
        obtain ⟨-, hjv⟩ := (ihmem i).1 hmem
        rw [getD_set_self ful i true true hiful] at hjv
        cases hjv
      · intro k j h nd hnd' p hp
        rw [hstep] at h ⊢
        match k, h with
        | 0, h =>
          simp only [List.getElem?_cons_zero, Option.some_inj] at h
          left
          rw [← h] at hnd'
          have hndeq : nd = nodes.get ⟨i, hilt⟩ := by
            rw [hnd'] at hnd
            exact Option.some_inj.1 hnd
          rw [List.all_eq_true] at hpre
          have hppre := hpre p (by rw [← hndeq]; exact hp)
          have hplt : p < nodes.length :=
            Nat.lt_trans (hI1 i nd hnd' p hp) hilt
          have hplen : p < ful.length := by rw [hlen]; exact hplt
          rw [List.getD_eq_getElem?_getD, List.getElem?_eq_getElem hplen]
            at hppre ⊢
          simpa using hppre
        | k + 1, h =>
          simp only [List.getElem?_cons_succ] at h
          rcases ihord k j h nd hnd' p hp with hv | hmem
          · by_cases hip : i = p
            · subst hip
              right
              simp [List.take_succ_cons]
            · left
              rw [getD_set_ne ful i p true true hip] at hv
              exact hv
          · right
            rw [List.take_succ_cons]
            exact List.mem_cons_of_mem i hmem

theorem replicate_getD_lt (n j : Nat) (hj : j < n) :
    (List.replicate n false).getD j true = false := by
  rw [List.getD_eq_getElem?_getD, List.getElem?_replicate]
  simp [hj]

theorem walk_spec_of_i1 (g : Graph R) (h1 : i1B g = true) :
    g.walk.2 = true ∧
    g.walk.1.Perm (List.range g.nodes.length) ∧
    (∀ (k i : Nat), g.walk.1[k]? = some i →
      ∀ nd, g.nodes[i]? = some nd →
        ∀ p ∈ nd.preconditions, p ∈ g.walk.1.take k) := by
  have hI1 := (i1B_iff g).1 h1
  have hful : (List.replicate g.nodes.length false).length =
      g.nodes.length := by simp
  have hcn : (List.replicate g.nodes.length false).count false =
      g.nodes.length := by simp
  have hcount : (List.replicate g.nodes.length false).count false ≤
      g.nodes.length + 1 := by omega
  obtain ⟨hok, hlen, hmem, hnodup, hord⟩ :=
    walkAux_spec g.nodes hI1 (g.nodes.length + 1) _ hful hcount
  refine ⟨hok, ?_, ?_⟩
  · refine (List.perm_ext_iff_of_nodup hnodup (List.nodup_range _)).2 ?_
    intro j
    rw [hmem j, List.mem_range]
    constructor
    · rintro ⟨hj, -⟩
      exact hj
    · intro hj
      exact ⟨hj, replicate_getD_lt _ j hj⟩
  · intro k i hk nd hnd p hp
    rcases hord k i hk nd hnd p hp with hv | hmem'
    · exfalso
      have hplt : p < g.nodes.length :=
        Nat.lt_trans (hI1 i nd hnd p hp) (List.getElem?_eq_some.mp hnd).1
      rw [replicate_getD_lt _ p hplt] at hv
      cases hv
    · exact hmem'

end WalkLemmas

section DifferLemmas

variable {R : Type} {α β : Type}

/-- Payload-wise, `invert` is `reverse`. -/
theorem invert_payload (g : Graph R) :
    g.invert.nodes.map payloadOf = (g.nodes.map payloadOf).reverse := by
  unfold Graph.invert
  simp only [List.map_reverse, List.map_map]
  congr 1
  rw [show g.nodes.enum = List.enumFrom 0 g.nodes from rfl]
  have : ∀ (l : List (GraphNode R)) (s : Nat),
      (List.enumFrom s l).map (fun p => payloadOf
        ({ requirement := p.2.requirement
           preconditions := invertPreconditions g.nodes p.1
           pre_existing := p.2.pre_existing } : GraphNode R)) =
        l.map payloadOf := by
    intro l
    induction l with
    | nil => intro s; rfl
    | cons x xs ih =>
      intro s
      rw [List.enumFrom_cons]
      simp only [List.map_cons]
      rw [ih (s + 1)]
      rfl
  exact this g.nodes 0

theorem enumFrom_filter_snd (pb : α → Bool) (h : α → β) :
    ∀ (l : List α) (s : Nat),
      ((List.enumFrom s l).filter (fun p => pb p.2)).map (fun p => h p.2) =
        (l.filter pb).map h := by
  intro l
  induction l with
  | nil => intro s; rfl
  | cons x xs ih =>
    intro s
    rw [List.enumFrom_cons, List.filter_cons, List.filter_cons]
    cases hpb : pb x <;> simp [hpb, ih (s + 1)]

theorem filter_map_of_map_eq (gfun : α → β) (q : β → Bool) :
    ∀ (l1 l2 : List α), l1.map gfun = l2.map gfun →
      (l1.filter (fun x => q (gfun x))).map gfun =
        (l2.filter (fun x => q (gfun x))).map gfun := by
  intro l1
  induction l1 with
  | nil =>
    intro l2 h
    cases l2 with
    | nil => rfl
    | cons y ys => simp at h
  | cons x xs ih =>
    intro l2 h
    cases l2 with
    | nil => simp at h
    | cons y ys =>
      simp only [List.map_cons, List.cons.injEq] at h
      obtain ⟨hxy, htail⟩ := h
      rw [List.filter_cons, List.filter_cons]
      have hq : q (gfun x) = q (gfun y) := by rw [hxy]
      cases hv : q (gfun x)
      · rw [← hq, hv]
        simp only [Bool.false_eq_true, if_false]
        exact ih ys htail
      · rw [← hq, hv]
        simp only [if_true, List.map_cons]
        rw [hxy, ih ys htail]

/-- The positional filter of `retain` inside `extract_undo_graph`
coincides with filtering the inverted nodes by the marking predicate. -/
theorem extractUndoGraph_payload [Inhabited R] (affects : R → R → Bool)
    (canUndo : R → Bool) (next prev : Graph R) :
    (extractUndoGraph affects canUndo next prev).nodes.map payloadOf =
      (prev.invert.nodes.filter (fun nd =>
        !(next.nodes.any (fun newNode =>
            affects nd.requirement newNode.requirement)) &&
          canUndo nd.requirement)).map payloadOf := by
  unfold extractUndoGraph
  rw [retain_payload]
  rw [show prev.invert.nodes.enum = List.enumFrom 0 prev.invert.nodes
    from rfl]
  rw [enumFrom_filter_eq_keptList
    (fun (index : Nat) (_ : GraphNode R) =>
      (prev.invert.nodes.map (fun node =>
        !(next.nodes.any (fun newNode =>
            affects node.requirement newNode.requirement)) &&
          canUndo node.requirement)).getD index false)
    prev.invert.nodes 0]
  rw [keptList_congr
    (fun (index : Nat) (_ : GraphNode R) =>
      (prev.invert.nodes.map (fun node =>
        !(next.nodes.any (fun newNode =>
            affects node.requirement newNode.requirement)) &&
          canUndo node.requirement)).getD index false)
    (fun (_ : Nat) (nd : GraphNode R) =>
      !(next.nodes.any (fun newNode =>
          affects nd.requirement newNode.requirement)) &&
        canUndo nd.requirement)
    prev.invert.nodes 0
    (by
      intro d x hx
      simp only
      rw [List.getD_eq_getElem?_getD, List.getElem?_map, Nat.zero_add, hx]
      rfl)]
  rw [← enumFrom_filter_eq_keptList]
  exact enumFrom_filter_snd
    (fun nd => !(next.nodes.any (fun newNode =>
        affects nd.requirement newNode.requirement)) &&
      canUndo nd.requirement)
    payloadOf prev.invert.nodes 0

end DifferLemmas

section RunLemmas

variable {R σ ε : Type}

theorem recordsOf_append (a b : List (Ev R)) :
    recordsOf (a ++ b) = recordsOf a ++ recordsOf b := by
  induction a with
  | nil => rfl
  | cons e rest ih =>
    cases e <;> simp [recordsOf, ih]

theorem recordsOf_routeEv (l : List (UndoEntry R)) :
    recordsOf (l.map routeEv) = [] := by
  induction l with
  | nil => rfl
  | cons e rest ih =>
    by_cases h : e.pre_existing = true <;>
      simp [routeEv, recordsOf, h, ih]

theorem runTodo_cons (ops : ReqOps R σ ε) (ask : R → Bool) (e : DoEntry R)
    (rest : List (DoEntry R)) (idx : Nat) (st : σ) (pe : List Nat) :
    runTodo ops ask (e :: rest) idx st pe =
      match stepTodo ops ask e idx st pe with
      | (tr, .error er) => (tr, .error er)
      | (tr, .ok (st1, pe1)) =>
        (tr ++ (runTodo ops ask rest (idx + 1) st1 pe1).1,
         (runTodo ops ask rest (idx + 1) st1 pe1).2) := by
  rw [runTodo]

theorem stepTodo_spec (ops : ReqOps R σ ε) (ask : R → Bool) (e : DoEntry R)
    (idx : Nat) (st : σ) (pe : List Nat) :
    (∀ tr er, stepTodo ops ask e idx st pe = (tr, .error er) →
      er.revert_info.position = Position.todo idx ∧
      er.requirement = e.requirement ∧
      er.revert_info.pre_existing = pe ++ recordsOf tr) ∧
    (∀ tr st1 pe1, stepTodo ops ask e idx st pe = (tr, .ok (st1, pe1)) →
      pe1 = pe ++ recordsOf tr) := by
  unfold stepTodo stepModify
  cases hhbc : ops.hasBeenCreated e.requirement st with
  | error inner =>
    refine ⟨?_, ?_⟩
    · intro tr er h
      simp only [Prod.mk.injEq] at h
      obtain ⟨htr, her⟩ := h
      cases her
      exact ⟨rfl, rfl, by rw [← htr]; simp [recordsOf]⟩
    · intro tr st1 pe1 h
      simp at h
  | ok pair =>
    obtain ⟨hbc, st1⟩ := pair
    cases hbc with
    | false =>
      simp only [Bool.false_eq_true, if_false]
      cases hcr : ops.create e.requirement st1 with
      | error inner =>
        refine ⟨?_, ?_⟩
        · intro tr er h
          simp only [Prod.mk.injEq] at h
          obtain ⟨htr, her⟩ := h
          cases her
          exact ⟨rfl, rfl, by rw [← htr]; simp [recordsOf]⟩
        · intro tr st2 pe1 h
          simp at h
      | ok st2 =>
        refine ⟨?_, ?_⟩
        · intro tr er h
          simp at h
        · intro tr st3 pe1 h
          simp only [Prod.mk.injEq] at h
          obtain ⟨htr, hok⟩ := h
          simp only [Except.ok.injEq, Prod.mk.injEq] at hok
          rw [← htr, ← hok.2]
          simp [recordsOf]
    | true =>
      simp only [if_true]
      by_cases hgate : (!e.should_exist && !ops.mayPreExist e.requirement)
        = true
      · rw [if_pos hgate]
        by_cases hask : ask e.requirement = true
        · rw [if_neg (by simp [hask])]
          cases hmod : ops.modify e.requirement st1 with
          | error inner =>
            refine ⟨?_, ?_⟩
            · intro tr er h
              simp only [Prod.mk.injEq] at h
              obtain ⟨htr, her⟩ := h
              cases her
              refine ⟨rfl, rfl, ?_⟩
              rw [← htr]
              by_cases hcbu : e.created_by_us = true <;>
                simp [hcbu, recordsOf_append, recordsOf]
            · intro tr st2 pe1 h
              simp at h
          | ok st2 =>
            refine ⟨?_, ?_⟩
            · intro tr er h
              simp at h
            · intro tr st3 pe1 h
              simp only [Prod.mk.injEq] at h
              obtain ⟨htr, hok⟩ := h
              simp only [Except.ok.injEq, Prod.mk.injEq] at hok
              rw [← htr, ← hok.2]
              by_cases hcbu : e.created_by_us = true <;>
                simp [hcbu, recordsOf_append, recordsOf]
        · rw [if_pos (by simp [Bool.not_eq_true] at hask; simp [hask])]
          refine ⟨?_, ?_⟩
          · intro tr er h
            simp only [Prod.mk.injEq] at h
            obtain ⟨htr, her⟩ := h
            cases her
            exact ⟨rfl, rfl, by rw [← htr]; simp [recordsOf]⟩
          · intro tr st2 pe1 h
            simp at h
      · rw [if_neg hgate]
        cases hmod : ops.modify e.requirement st1 with
        | error inner =>
          refine ⟨?_, ?_⟩
          · intro tr er h
            simp only [Prod.mk.injEq] at h
            obtain ⟨htr, her⟩ := h
            cases her
            refine ⟨rfl, rfl, ?_⟩
            rw [← htr]
            by_cases hcbu : e.created_by_us = true <;>
              simp [hcbu, recordsOf_append, recordsOf]
          · intro tr st2 pe1 h
            simp at h
        | ok st2 =>
          refine ⟨?_, ?_⟩
          · intro tr er h
            simp at h
          · intro tr st3 pe1 h
            simp only [Prod.mk.injEq] at h
            obtain ⟨htr, hok⟩ := h
            simp only [Except.ok.injEq, Prod.mk.injEq] at hok
            rw [← htr, ← hok.2]
            by_cases hcbu : e.created_by_us = true <;>
              simp [hcbu, recordsOf_append, recordsOf]

theorem runUndo_trace (ops : ReqOps R σ ε) :
    ∀ (l : List (UndoEntry R)) (idx : Nat) (st : σ) (pe : List Nat),
      ∃ m, m ≤ l.length ∧
        (runUndo ops l idx st pe).1 = (l.take m).map routeEv ∧
        (∀ st', (runUndo ops l idx st pe).2 = .ok st' → m = l.length) := by
  intro l
  induction l with
  | nil =>
    intro idx st pe
    exact ⟨0, by simp, by simp [runUndo], fun st' _ => rfl⟩
  | cons e rest ih =>
    intro idx st pe
    by_cases hpe : e.pre_existing = true
    · cases hdel : ops.preExistingDelete e.requirement st with
      | error inner =>
        refine ⟨1, by simp, ?_, ?_⟩
        · simp [runUndo, hpe, hdel, routeEv]
        · intro st' h
          simp [runUndo, hpe, hdel] at h
      | ok st1 =>
        obtain ⟨m, hm, htr, hok⟩ := ih (idx + 1) st1 pe
        refine ⟨m + 1, by simpa using Nat.succ_le_succ hm, ?_, ?_⟩
        · simp only [runUndo, hpe, if_true, hdel, List.take_succ_cons,
            List.map_cons]
          rw [htr]
          simp [routeEv, hpe]
        · intro st' h
          simp only [runUndo, hpe, if_true, hdel] at h
          rw [hok st' h]
          simp
    · have hpe' : e.pre_existing = false := by
        cases hv : e.pre_existing
        · rfl
        · exact absurd hv hpe
      cases hdel : ops.delete e.requirement st with
      | error inner =>
        refine ⟨1, by simp, ?_, ?_⟩
        · simp [runUndo, hpe', hdel, routeEv]
        · intro st' h
          simp [runUndo, hpe', hdel] at h
      | ok st1 =>
        obtain ⟨m, hm, htr, hok⟩ := ih (idx + 1) st1 pe
        refine ⟨m + 1, by simpa using Nat.succ_le_succ hm, ?_, ?_⟩
        · simp only [runUndo, hpe', Bool.false_eq_true, if_false, hdel,
            List.take_succ_cons, List.map_cons]
          rw [htr]
          simp [routeEv, hpe']
        · intro st' h
          simp only [runUndo, hpe', Bool.false_eq_true, if_false, hdel] at h
          rw [hok st' h]
          simp

theorem runUndo_error (ops : ReqOps R σ ε) :
    ∀ (l : List (UndoEntry R)) (idx : Nat) (st : σ) (pe : List Nat)
      (er : RunErr R ε), (runUndo ops l idx st pe).2 = .error er →
      er.revert_info.pre_existing = pe ∧
      ∃ j, j < l.length ∧
        er.revert_info.position = Position.undo (idx + j) ∧
        ∃ u, l[j]? = some u ∧ er.requirement = u.requirement ∧
          ∃ inner, er.inner = OpErr.deleteFailed inner := by
  intro l
  induction l with
  | nil =>
    intro idx st pe er h
    simp [runUndo] at h
  | cons e rest ih =>
    intro idx st pe er h
    by_cases hpe : e.pre_existing = true
    · cases hdel : ops.preExistingDelete e.requirement st with
      | error inner =>
        simp only [runUndo, hpe, if_true, hdel, Except.error.injEq] at h
        rw [← h]
        exact ⟨rfl, 0, by simp, by simp, e, by simp, rfl, inner, rfl⟩
      | ok st1 =>
        simp only [runUndo, hpe, if_true, hdel] at h
        obtain ⟨hpe', j, hj, hpos, u, hu, hreq, hinner⟩ :=
          ih (idx + 1) st1 pe er h
        refine ⟨hpe', j + 1, by simpa using Nat.succ_lt_succ hj, ?_,
          u, by simpa using hu, hreq, hinner⟩
        rw [hpos]
        congr 1
        omega
    · have hpe' : e.pre_existing = false := by
        cases hv : e.pre_existing
        · rfl
        · exact absurd hv hpe
      cases hdel : ops.delete e.requirement st with
      | error inner =>
        simp only [runUndo, hpe', Bool.false_eq_true, if_false, hdel,
          Except.error.injEq] at h
        rw [← h]
        exact ⟨rfl, 0, by simp, by simp, e, by simp, rfl, inner, rfl⟩
      | ok st1 =>
        simp only [runUndo, hpe', Bool.false_eq_true, if_false, hdel] at h
        obtain ⟨hpe'', j, hj, hpos, u, hu, hreq, hinner⟩ :=
          ih (idx + 1) st1 pe er h
        refine ⟨hpe'', j + 1, by simpa using Nat.succ_lt_succ hj, ?_,
          u, by simpa using hu, hreq, hinner⟩
        rw [hpos]
        congr 1
        omega

theorem runTodo_error (ops : ReqOps R σ ε) (ask : R → Bool) :
    ∀ (l : List (DoEntry R)) (idx : Nat) (st : σ) (pe : List Nat)
      (tr : List (Ev R)) (er : RunErr R ε),
      runTodo ops ask l idx st pe = (tr, .error er) →
      er.revert_info.pre_existing = pe ++ recordsOf tr ∧
      ∃ j, j < l.length ∧
        er.revert_info.position = Position.todo (idx + j) ∧
        ∃ d, l[j]? = some d ∧ er.requirement = d.requirement := by
  intro l
  induction l with
  | nil =>
    intro idx st pe tr er h
    simp [runTodo] at h
  | cons e rest ih =>
    intro idx st pe tr er h
    rw [runTodo_cons] at h
    cases hstep : stepTodo ops ask e idx st pe with
    | mk tr0 res =>
      rw [hstep] at h
      cases res with
      | error er0 =>
        simp only [Prod.mk.injEq, Except.error.injEq] at h
        obtain ⟨htr, her⟩ := h
        subst htr
        subst her
        obtain ⟨hpos, hreq, hpe⟩ := (stepTodo_spec ops ask e idx st pe).1
          tr0 er0 hstep
        exact ⟨hpe, 0, by simp, by simpa using hpos, e, by simp, hreq⟩
      | ok pair =>
        obtain ⟨st1, pe1⟩ := pair
        simp only [Prod.mk.injEq] at h
        obtain ⟨htr, hres⟩ := h
        have hrt : runTodo ops ask rest (idx + 1) st1 pe1 =
            ((runTodo ops ask rest (idx + 1) st1 pe1).1, .error er) := by
          rw [← hres]
        obtain ⟨hpe, j, hj, hpos, d, hd, hreq⟩ :=
          ih (idx + 1) st1 pe1 _ er hrt
        have hpe1 : pe1 = pe ++ recordsOf tr0 :=
          (stepTodo_spec ops ask e idx st pe).2 tr0 st1 pe1 hstep
        refine ⟨?_, j + 1, by simpa using Nat.succ_lt_succ hj, ?_,
          d, by simpa using hd, hreq⟩
        · rw [← htr, recordsOf_append, hpe, hpe1, List.append_assoc]
        · rw [hpos]
          congr 1
          omega

end RunLemmas

/-- C3 (evaluation at the failing input): `LocalSystem::dir_is_empty`
returns `read_dir(path)?.count() != 0`, which is true exactly when the
directory is NOT empty — the opposite of its name, of the trait's default
implementation, and of the claim.  Through the `LocalSystem` backend,
`Dirs::initialize` therefore rejects an empty base directory with
`BaseDirectoryNotEmpty` and proceeds on a non-empty one; with the trait
default `dir_is_empty` the claimed behaviour holds: a non-empty base
directory is refused, and on an empty one the tree is created, version 0
is written with an empty Applied graph, `current` points at version 0,
and the base directory mode is `0o700`. -/
theorem claim_C3_init_dir_check :
    dirsInitImpl localOps dirsEx encUnit fsEmpty =
      .error (InitErrM.baseDirectoryNotEmpty baseP) ∧
    (dirsInitImpl localOps dirsEx encUnit fsNonEmpty).toOption.isSome =
      true ∧
    (dirsInitImpl defaultOps dirsEx encUnit fsNonEmpty =
      .error (InitErrM.baseDirectoryNotEmpty baseP)) ∧
    (dirsInitImpl defaultOps dirsEx encUnit fsEmpty).toOption.map
        (fun fs => (fileAt fs dirsEx.currentPath,
          fileAt fs (dirsEx.getInstall 0).db,
          modeAt fs dirsEx.base)) =
      some (some "0",
        some (jsonToString (encodeGraph encUnit (⟨[]⟩ : Graph Unit))),
        some 0o700) := by
  exact ⟨rfl, rfl, rfl, rfl⟩

/-- C8: whenever `ApplySequence::run` returns an error, its `RevertInfo`
names the failing phase and position — `Undo(j)` with the `j`-th undo
entry failing a delete, or `Todo(j)` with the `j`-th todo entry failing —
and carries exactly the source indices recorded as pre-existing so far
(the `record` events of the trace); and in the undo phase every entry is
routed to `pre_existing_delete` when its `pre_existing` flag is set and
to `delete` otherwise (the trace is the routed prefix of the undo
list). -/
theorem claim_C8_revert_info (R σ ε : Type) (ops : ReqOps R σ ε)
    (ask : R → Bool) (undo : List (UndoEntry R)) (todo : List (DoEntry R))
    (st : σ) :
    (∀ (tr : List (Ev R)) (er : RunErr R ε),
      runSeq ops ask undo todo st = (tr, .error er) →
      er.revert_info.pre_existing = recordsOf tr ∧
      ((∃ j, j < undo.length ∧
          er.revert_info.position = Position.undo j ∧
          ∃ u, undo[j]? = some u ∧ er.requirement = u.requirement ∧
            ∃ inner, er.inner = OpErr.deleteFailed inner) ∨
       (∃ j, j < todo.length ∧
          er.revert_info.position = Position.todo j ∧
          ∃ d, todo[j]? = some d ∧ er.requirement = d.requirement))) ∧
    (∃ m, m ≤ undo.length ∧
      (runUndo ops undo 0 st []).1 = (undo.take m).map routeEv) := by
  constructor
  · intro tr er h
    unfold runSeq at h
    cases hru : runUndo ops undo 0 st [] with
    | mk trU resU =>
      rw [hru] at h
      cases resU with
      | error erU =>
        simp only [Prod.mk.injEq, Except.error.injEq] at h
        obtain ⟨htr, her⟩ := h
        have hr2 : (runUndo ops undo 0 st []).2 = .error erU := by
          rw [hru]
        obtain ⟨hpe, j, hj, hpos, u, hu, hreq, hinner⟩ :=
          runUndo_error ops undo 0 st [] erU hr2
        obtain ⟨m, hm, htrm, -⟩ := runUndo_trace ops undo 0 st []
        rw [hru] at htrm
        simp only at htrm
        rw [← htr, ← her]
        refine ⟨?_, Or.inl ⟨j, hj, by simpa using hpos, u, hu, hreq,
          hinner⟩⟩
        rw [hpe, htrm, recordsOf_routeEv]
      | ok st1 =>
        simp only [Prod.mk.injEq] at h
        obtain ⟨htr, hres⟩ := h
        cases hrt : runTodo ops ask todo 0 st1 [] with
        | mk trT resT =>
          rw [hrt] at hres htr
          simp only at hres htr
          cases resT with
          | ok pair => cases hres
          | error erT =>
            have her : erT = er := by simpa using hres
            obtain ⟨hpe, j, hj, hpos, d, hd, hreq⟩ :=
              runTodo_error ops ask todo 0 st1 [] trT erT hrt
            obtain ⟨m, hm, htrm, -⟩ := runUndo_trace ops undo 0 st []
            rw [hru] at htrm
            simp only at htrm
            rw [← htr, ← her]
            refine ⟨?_, Or.inr ⟨j, hj, by simpa using hpos, d, hd, hreq⟩⟩
            rw [hpe, recordsOf_append, htrm, recordsOf_routeEv]
  · obtain ⟨m, hm, htrm, -⟩ := runUndo_trace ops undo 0 st []
    exact ⟨m, hm, htrm⟩

/-- Witness for C8: a run whose second todo entry aborts with
`PreExisting` after the first entry recorded source index 7. -/
theorem claim_C8_revert_info_witness :
    runSeq opsAllOk (fun _ => false) ([] : List (UndoEntry Unit))
        [{ requirement := (), created_by_us := false, should_exist := true,
           source := 7 },
         { requirement := (), created_by_us := false, should_exist := false,
           source := 9 }] () =
      ([Ev.check (), Ev.record 7, Ev.modify (), Ev.check (),
        Ev.askOverwrite ()],
       .error { requirement := ()
                revert_info := { position := Position.todo 1
                                 pre_existing := [7] }
                inner := OpErr.preExisting }) ∧
    ({ requirement := ()
       revert_info := { position := Position.todo 1, pre_existing := [7] }
       inner := OpErr.preExisting } : RunErr Unit Unit).revert_info.pre_existing =
      recordsOf [Ev.check (), Ev.record 7, Ev.modify (), Ev.check (),
        Ev.askOverwrite ()] :=
  ⟨rfl,
   ((claim_C8_revert_info Unit Unit Unit opsAllOk (fun _ => false) []
      [{ requirement := (), created_by_us := false, should_exist := true,
         source := 7 },
       { requirement := (), created_by_us := false, should_exist := false,
         source := 9 }] ()).1 _ _ rfl).1⟩

/-- C1: each todo entry is processed by `ApplySequence::run` through one
step whose behaviour is: when `has_been_created` returns `true`, if the
entry's `should_exist` is false, `may_pre_exist()` is false and
`ask_overwrite` refuses, the run fails with the `PreExisting` error;
otherwise the entry's source index is recorded exactly when
`created_by_us` is false, and then `modify` is called; when
`has_been_created` returns `false`, `create` is called instead. -/
theorem claim_C1_todo_branches (R σ ε : Type) (ops : ReqOps R σ ε)
    (ask : R → Bool) (e : DoEntry R) (idx : Nat) (st : σ)
    (pe : List Nat) :
    (∀ (rest : List (DoEntry R)),
      runTodo ops ask (e :: rest) idx st pe =
        match stepTodo ops ask e idx st pe with
        | (tr, .error er) => (tr, .error er)
        | (tr, .ok (st1, pe1)) =>
          (tr ++ (runTodo ops ask rest (idx + 1) st1 pe1).1,
           (runTodo ops ask rest (idx + 1) st1 pe1).2)) ∧
    (∀ st1, ops.hasBeenCreated e.requirement st = .ok (true, st1) →
      e.should_exist = false → ops.mayPreExist e.requirement = false →
      ask e.requirement = false →
      stepTodo ops ask e idx st pe =
        ([Ev.check e.requirement, Ev.askOverwrite e.requirement],
         .error { requirement := e.requirement
                  revert_info := { position := Position.todo idx
                                   pre_existing := pe }
                  inner := OpErr.preExisting })) ∧
    (∀ st1, ops.hasBeenCreated e.requirement st = .ok (true, st1) →
      (e.should_exist = true ∨ ops.mayPreExist e.requirement = true ∨
        ask e.requirement = true) →
      (stepTodo ops ask e idx st pe).1 =
        [Ev.check e.requirement] ++
        (if !e.should_exist && !ops.mayPreExist e.requirement
         then [Ev.askOverwrite e.requirement] else []) ++
        (if e.created_by_us then [] else [Ev.record e.source]) ++
        [Ev.modify e.requirement] ∧
      (∀ st2 pe2, (stepTodo ops ask e idx st pe).2 = .ok (st2, pe2) →
        pe2 = pe ++ (if e.created_by_us then [] else [e.source]))) ∧
    (∀ st1, ops.hasBeenCreated e.requirement st = .ok (false, st1) →
      (stepTodo ops ask e idx st pe).1 =
        [Ev.check e.requirement, Ev.create e.requirement]) := by
  refine ⟨fun rest => runTodo_cons ops ask e rest idx st pe, ?_, ?_, ?_⟩
  · intro st1 hhbc hse hmpe hask
    unfold stepTodo
    rw [hhbc]
    simp [hse, hmpe, hask]
  · intro st1 hhbc hdisj
    unfold stepTodo stepModify
    rw [hhbc]
    simp only [if_true]
    by_cases hg : (!e.should_exist && !ops.mayPreExist e.requirement) = true
    · have hask : ask e.requirement = true := by
        have hg' := hg
        simp only [Bool.and_eq_true, Bool.not_eq_true'] at hg'
        rcases hdisj with h | h | h
        · rw [h] at hg'
          cases hg'.1
        · rw [h] at hg'
          cases hg'.2
        · exact h
      simp only [hg, if_true, hask, Bool.not_true, Bool.false_eq_true,
        if_false]
      cases hmod : ops.modify e.requirement st1 with
      | error inner =>
        refine ⟨by simp, ?_⟩
        intro st2 pe2 hok
        simp at hok
      | ok st2 =>
        refine ⟨by simp, ?_⟩
        intro st3 pe2 hok
        simp only [Except.ok.injEq, Prod.mk.injEq] at hok
        rw [← hok.2]
        by_cases hcbu : e.created_by_us = true <;> simp [hcbu]
    · have hg' : (!e.should_exist && !ops.mayPreExist e.requirement)
          = false := by
        cases hv : (!e.should_exist && !ops.mayPreExist e.requirement)
        · rfl
        · exact absurd hv hg
      simp only [hg', Bool.false_eq_true, if_false]
      cases hmod : ops.modify e.requirement st1 with
      | error inner =>
        refine ⟨by simp, ?_⟩
        intro st2 pe2 hok
        simp at hok
      | ok st2 =>
        refine ⟨by simp, ?_⟩
        intro st3 pe2 hok
        simp only [Except.ok.injEq, Prod.mk.injEq] at hok
        rw [← hok.2]
        by_cases hcbu : e.created_by_us = true <;> simp [hcbu]
  · intro st1 hhbc
    unfold stepTodo
    rw [hhbc]
    simp only [Bool.false_eq_true, if_false]
    cases hcr : ops.create e.requirement st1 <;> rfl

/-- Witness for C1: the three branches exercised on concrete hosts — a
refused pre-existing resource, a plain modify with source recording, and
a create. -/
theorem claim_C1_todo_branches_witness :
    stepTodo opsAllOk (fun _ => false)
        { requirement := (), created_by_us := false, should_exist := false,
          source := 3 } 0 () [] =
      ([Ev.check (), Ev.askOverwrite ()],
       .error { requirement := ()
                revert_info := { position := Position.todo 0
                                 pre_existing := [] }
                inner := OpErr.preExisting }) ∧
    (stepTodo opsAllOk (fun _ => false)
        { requirement := (), created_by_us := false, should_exist := true,
          source := 4 } 0 () []).1 =
      [Ev.check ()] ++ [] ++ [Ev.record 4] ++ [Ev.modify ()] ∧
    (stepTodo opsNotCreated (fun _ => false)
        { requirement := (), created_by_us := false, should_exist := true,
          source := 5 } 0 () []).1 = [Ev.check (), Ev.create ()] := by
  refine ⟨?_, ?_, ?_⟩
  · exact (claim_C1_todo_branches Unit Unit Unit opsAllOk (fun _ => false)
      _ 0 () []).2.1 () rfl rfl rfl rfl
  · have h := ((claim_C1_todo_branches Unit Unit Unit opsAllOk
      (fun _ => false)
      { requirement := (), created_by_us := false, should_exist := true,
        source := 4 } 0 () []).2.2.1 () rfl (Or.inl rfl)).1
    simpa using h
  · exact (claim_C1_todo_branches Unit Unit Unit opsNotCreated
      (fun _ => false)
      { requirement := (), created_by_us := false, should_exist := true,
        source := 5 } 0 () []).2.2.2 () rfl

/-- C4 counterexample: the claim that `modify` is invoked only when
`supports_modifications()` is true fails on the code — the driver never
consults `supports_modifications`.  Here a requirement with
`supports_modifications() = false` still gets `modify` called once
`has_been_created` returned true. -/
theorem claim_C4_counterexample :
    opsAllOk.supportsModifications () = false ∧
      Ev.modify () ∈ (runSeq opsAllOk (fun _ => false)
        ([] : List (UndoEntry Unit))
        [{ requirement := (), created_by_us := true, should_exist := true,
           source := 0 }] ()).1 := by
  constructor
  · rfl
  · decide

/-- C4 (amended): during a run, `modify` is invoked on a todo entry
exactly when `has_been_created` returned `true` and the pre-existence
gate did not abort (`should_exist`, `may_pre_exist`, the `ask_overwrite`
callback); `supports_modifications()` is not consulted — the equivalence
holds for every interpretation of the requirement contract, including
those whose `supports_modifications` is false. -/
theorem claim_C4_modify_gating (R σ ε : Type) (ops : ReqOps R σ ε)
    (ask : R → Bool) (e : DoEntry R) (idx : Nat) (st : σ)
    (pe : List Nat) :
    Ev.modify e.requirement ∈ (stepTodo ops ask e idx st pe).1 ↔
      ((∃ st1, ops.hasBeenCreated e.requirement st = .ok (true, st1)) ∧
        ¬(e.should_exist = false ∧ ops.mayPreExist e.requirement = false ∧
          ask e.requirement = false)) := by
  unfold stepTodo stepModify
  cases hhbc : ops.hasBeenCreated e.requirement st with
  | error inner =>
    simp only [List.mem_singleton]
    constructor
    · intro h
      cases h
    · rintro ⟨⟨st1, h⟩, -⟩
      cases h
  | ok pair =>
    obtain ⟨hbc, st1⟩ := pair
    cases hbc with
    | false =>
      simp only [Bool.false_eq_true, if_false]
      cases hcr : ops.create e.requirement st1 <;>
        · simp only [List.mem_cons, List.not_mem_nil]
          constructor
          · rintro (h | h | h) <;> cases h
          · rintro ⟨⟨st2, h⟩, -⟩
            simp at h
    | true =>
      simp only [if_true]
      by_cases hg : (!e.should_exist && !ops.mayPreExist e.requirement)
        = true
      · rw [if_pos hg]
        rw [Bool.and_eq_true, Bool.not_eq_true', Bool.not_eq_true'] at hg
        by_cases hask : ask e.requirement = true
        · rw [if_neg (by simp [hask])]
          cases hmod : ops.modify e.requirement st1 <;>
            · constructor
              · intro _
                exact ⟨⟨st1, rfl⟩, by
                  rintro ⟨-, -, hask'⟩
                  rw [hask] at hask'
                  cases hask'⟩
              · intro _
                by_cases hcbu : e.created_by_us = true <;>
                  simp [hcbu]
        · rw [if_pos (by simpa using hask)]
          simp only [List.mem_cons, List.not_mem_nil]
          constructor
          · rintro (h | h | h) <;> cases h
          · rintro ⟨-, hno⟩
            exact absurd ⟨hg.1, hg.2, by simpa using hask⟩ hno
      · rw [if_neg hg]
        cases hmod : ops.modify e.requirement st1 <;>
          · constructor
            · intro _
              refine ⟨⟨st1, rfl⟩, ?_⟩
              rintro ⟨hse, hmpe, -⟩
              exact hg (by simp [hse, hmpe])
            · intro _
              by_cases hcbu : e.created_by_us = true <;>
                simp [hcbu]

section SerdeLemmas

theorem encodeSum_eq_obj :
    ∀ {ks : List Kind} (v : SumVal ks),
      encodeSum v = Json.obj [tagOf v]
  | _, SumVal.item _ => rfl
  | _, SumVal.next b => encodeSum_eq_obj b

theorem tagOf_name_mem :
    ∀ {ks : List Kind} (v : SumVal ks), (tagOf v).1 ∈ ks.map Kind.name := by
  intro ks v
  induction v with
  | item a => exact List.mem_cons_self _ _
  | next b ih => exact List.mem_cons_of_mem _ ih

theorem tagOf_spec :
    ∀ {ks : List Kind} (v : SumVal ks),
      ∃ (k : Kind) (a : k.payload), k ∈ ks ∧ tagOf v = (k.name, k.enc a) := by
  intro ks v
  induction v with
  | item a => exact ⟨_, a, List.mem_cons_self _ _, rfl⟩
  | next b ih =>
    obtain ⟨k, a, hk, hv⟩ := ih
    exact ⟨k, a, List.mem_cons_of_mem _ hk, hv⟩

theorem decodeSum_encodeSum (ks : List Kind) (v : SumVal ks)
    (hdec : ∀ k ∈ ks, ∀ (a : k.payload), k.dec (k.enc a) = some a)
    (hnodup : (ks.map Kind.name).Nodup) :
    decodeSum ks (encodeSum v) = some v := by
  induction v with
  | item a =>
    rename_i k ks'
    show decodeKey (k :: ks') k.name (k.enc a) = some (SumVal.item a)
    unfold decodeKey
    rw [if_pos (by simp)]
    rw [hdec k (List.mem_cons_self _ _) a]
    rfl
  | next b ih =>
    rename_i k ks'
    have hnodup' := (List.nodup_cons.1 hnodup)
    have hne : (tagOf b).1 ≠ k.name := by
      intro heq
      exact hnodup'.1 (heq ▸ tagOf_name_mem b)
    have hdec' : ∀ k' ∈ ks', ∀ (a : k'.payload), k'.dec (k'.enc a) = some a :=
      fun k' hk' => hdec k' (List.mem_cons_of_mem _ hk')
    have hihr := ih hdec' hnodup'.2
    show decodeSum (k :: ks') (encodeSum b) = some (SumVal.next b)
    rw [encodeSum_eq_obj b]
    show decodeKey (k :: ks') (tagOf b).1 (tagOf b).2 = some (SumVal.next b)
    unfold decodeKey
    rw [if_neg (by simpa using hne)]
    rw [encodeSum_eq_obj b] at hihr
    have : decodeKey ks' (tagOf b).1 (tagOf b).2 = some b := hihr
    rw [this]
    rfl

theorem decodeKey_of_kind :
    ∀ (ks' : List Kind) (k : Kind) (a : k.payload), k ∈ ks' →
      (ks'.map Kind.name).Nodup →
      (∀ k' ∈ ks', ∀ (x : k'.payload), k'.dec (k'.enc x) = some x) →
      ∃ w : SumVal ks', decodeKey ks' k.name (k.enc a) = some w ∧
        tagOf w = (k.name, k.enc a) := by
  intro ks'
  induction ks' with
  | nil => intro k a hk; cases hk
  | cons k₀ rest ih =>
    intro k a hk hnodup hdec
    rcases List.mem_cons.1 hk with rfl | hk'
    · refine ⟨SumVal.item a, ?_, rfl⟩
      unfold decodeKey
      rw [if_pos (by simp)]
      rw [hdec k (List.mem_cons_self _ _) a]
      rfl
    · have hnodup' := List.nodup_cons.1 hnodup
      have hne : k.name ≠ k₀.name := by
        intro heq
        exact hnodup'.1 (heq ▸ List.mem_map_of_mem Kind.name hk')
      obtain ⟨w', hw', htag⟩ := ih k a hk' hnodup'.2
        (fun k' hk'' => hdec k' (List.mem_cons_of_mem _ hk''))
      refine ⟨SumVal.next w', ?_, htag⟩
      unfold decodeKey
      rw [if_neg (by simpa using hne)]
      rw [hw']
      rfl

end SerdeLemmas

/-- C9: the serialization of any value of the requirement sum is a
single-entry map whose key is the kind's `NAME` and whose value is the
encoded payload; with lossless payload (de)serializers and distinct kind
names, decoding that encoding restores the value exactly
(`decode (encode P) = P`); and for any reordering of the kinds in the
sum, decoding still succeeds and yields a value with the same kind name
and payload encoding.  (Field-order tolerance inside a payload lives in
the abstract payload decoder `Kind.dec`; the outer map has a single
entry, so no outer field order exists.) -/
theorem claim_C9_roundtrip_encoding :
    (∀ (ks : List Kind) (v : SumVal ks),
      encodeSum v = Json.obj [tagOf v]) ∧
    (∀ (ks : List Kind) (v : SumVal ks),
      (∀ k ∈ ks, ∀ (a : k.payload), k.dec (k.enc a) = some a) →
      (ks.map Kind.name).Nodup →
      decodeSum ks (encodeSum v) = some v) ∧
    (∀ (ks ks' : List Kind) (v : SumVal ks), ks.Perm ks' →
      (∀ k ∈ ks', ∀ (a : k.payload), k.dec (k.enc a) = some a) →
      (ks'.map Kind.name).Nodup →
      ∃ w : SumVal ks', decodeSum ks' (encodeSum v) = some w ∧
        tagOf w = tagOf v) := by
  refine ⟨fun ks v => encodeSum_eq_obj v, decodeSum_encodeSum, ?_⟩
  intro ks ks' v hperm hdec hnodup
  obtain ⟨k, a, hk, htag⟩ := tagOf_spec v
  have hk' : k ∈ ks' := hperm.mem_iff.1 hk
  obtain ⟨w, hw, hwtag⟩ := decodeKey_of_kind ks' k a hk' hnodup hdec
  refine ⟨w, ?_, by rw [hwtag, htag]⟩
  rw [encodeSum_eq_obj v, htag]
  exact hw

/-- Witness for C9: round-trip and reorder at a concrete two-kind sum
with a `Nat` payload. -/
theorem claim_C9_roundtrip_encoding_witness :
    decodeSum [fooKind, barKind] (encodeSum fooVal) = some fooVal ∧
      ∃ w : SumVal [barKind, fooKind],
        decodeSum [barKind, fooKind] (encodeSum fooVal) = some w ∧
          tagOf w = tagOf fooVal := by
  have hdec : ∀ k ∈ [fooKind, barKind], ∀ (a : k.payload),
      k.dec (k.enc a) = some a := by
    intro k hk a
    rcases List.mem_cons.1 hk with rfl | hk'
    · simp [fooKind, natKind, decodeNatJ]
    · rcases List.mem_cons.1 hk' with rfl | hk''
      · simp [barKind, natKind, decodeNatJ]
      · cases hk''
  have hdec' : ∀ k ∈ [barKind, fooKind], ∀ (a : k.payload),
      k.dec (k.enc a) = some a := by
    intro k hk a
    rcases List.mem_cons.1 hk with rfl | hk'
    · simp [barKind, natKind, decodeNatJ]
    · rcases List.mem_cons.1 hk' with rfl | hk''
      · simp [fooKind, natKind, decodeNatJ]
      · cases hk''
  refine ⟨?_, ?_⟩
  · exact claim_C9_roundtrip_encoding.2.1 [fooKind, barKind] fooVal hdec
      (by simp [fooKind, barKind, natKind])
  · exact claim_C9_roundtrip_encoding.2.2 [fooKind, barKind]
      [barKind, fooKind] fooVal (List.Perm.swap _ _ _) hdec'
      (by simp [fooKind, barKind, natKind])

/-- C10: `Graph::add` appends a node holding exactly the supplied
precondition indices — any indices, with no range or ordering check —
and returns the node's index; deserializing a graph (the path of
`StateDirs::load_install`) performs no acyclicity or index validation,
so a graph whose single node lists itself as its own precondition
decodes successfully; and on that graph the walker yields no node and
its final assertion fails (`GraphWalker::next` panics) instead of
returning an error or yielding the remaining nodes. -/
theorem claim_C10_no_validation :
    (∀ (R : Type) (g : Graph R) (r : R) (deps : List Nat),
      (g.add r deps).1.nodes =
        g.nodes ++ [{ requirement := r, preconditions := deps,
                      pre_existing := false }] ∧
      (g.add r deps).2 = g.nodes.length) ∧
    (decodeGraph decodeNatJ
        (Json.obj [("nodes", Json.arr [Json.obj
          [("requirement", Json.num 7),
           ("preconditions", Json.arr [Json.num 0]),
           ("pre_existing", Json.bool false)]]),
          ("state", Json.null)]) =
      some ⟨[{ requirement := 7, preconditions := [0],
               pre_existing := false }]⟩) ∧
    i1B (⟨[{ requirement := (7 : Nat), preconditions := [0],
             pre_existing := false }]⟩ : Graph Nat) = false ∧
    (⟨[{ requirement := (7 : Nat), preconditions := [0],
         pre_existing := false }]⟩ : Graph Nat).walk = ([], false) := by
  exact ⟨fun R g r deps => ⟨rfl, rfl⟩, by decide, by decide, by decide⟩

/-- C5: `retain` keeps exactly the nodes satisfying the predicate (same
requirements and `pre_existing` flags, in order); an index inherited
through removed preconditions is appended only when not already present,
so any index outside the directly-kept remapped preconditions occurs at
most once; and on the spec's example graph ROOT, A(ROOT), B(A), C(A,ROOT),
END(B,C), retaining all nodes but A and B yields exactly
ROOT, C(ROOT), END(C,ROOT). -/
theorem claim_C5_retain_inheritance (R : Type) [Inhabited R] (g : Graph R)
    (f : Nat → GraphNode R → Bool) :
    ((g.retain f).nodes.map payloadOf =
      (g.nodes.enum.filter (fun p => f p.1 p.2)).map
        (fun p => payloadOf p.2)) ∧
    (∀ (map : List (Option Nat)) (inherited : List (List Nat))
        (nd : GraphNode R) (x : Nat),
      x ∉ (nd.preconditions.filter
            (fun pc => (map.getD pc none).isSome)).map
            (fun pc => (map.getD pc none).getD 0) →
      (remapNode map inherited nd).preconditions.count x ≤ 1) ∧
    retainScenarioGraph.retain
        (fun _ nd => !(nd.requirement.id == 1) && !(nd.requirement.id == 2))
      = retainScenarioExpected := by
  refine ⟨retain_payload g f, ?_, by decide⟩
  intro map inherited nd x hx
  unfold remapNode
  simp only
  refine Nat.le_trans (dedupFold_count _ _ x) ?_
  rw [List.count_eq_zero.2 hx]
  simp

/-- Witness for C5: the inherited-precondition dedup bound applied at a
concrete node whose kept preconditions do not contain the index. -/
theorem claim_C5_retain_inheritance_witness :
    (remapNode [some 0] [[1, 1]]
      ({ requirement := (⟨7, true⟩ : TestReq), preconditions := [0]
         pre_existing := false })).preconditions.count 1 ≤ 1 :=
  (claim_C5_retain_inheritance TestReq retainScenarioGraph
    (fun _ _ => true)).2.1 [some 0] [[1, 1]]
    { requirement := ⟨7, true⟩, preconditions := [0], pre_existing := false }
    1 (by decide)

/-- C6: for every graph satisfying invariant I1, repeatedly calling
`GraphWalker::next` yields every node exactly once (the yielded index
list is a permutation of `0..n-1`) and then `None` with the final
assertion never failing; every node is yielded only after all of its
preconditions; and each step yields the largest eligible index (the
reverse-insertion-order scan returns an eligible index, and every larger
index is ineligible at that point). -/
theorem claim_C6_walker_total (R : Type) (g : Graph R)
    (h1 : i1B g = true) :
    g.walk.2 = true ∧
    g.walk.1.Perm (List.range g.nodes.length) ∧
    (∀ (k i : Nat), g.walk.1[k]? = some i →
      ∀ nd, g.nodes[i]? = some nd →
        ∀ p ∈ nd.preconditions, p ∈ g.walk.1.take k) ∧
    (∀ (ful : List Bool) (i : Nat),
      findCand g.nodes ful g.nodes.length = some i →
      eligibleB g.nodes ful i = true ∧
      ∀ j, i < j → j < g.nodes.length → eligibleB g.nodes ful j = false) := by
  obtain ⟨hok, hperm, hord⟩ := walk_spec_of_i1 g h1
  refine ⟨hok, hperm, hord, ?_⟩
  intro ful i hfc
  obtain ⟨-, h2, h3⟩ := (findCand_spec g.nodes ful g.nodes.length).1 i hfc
  exact ⟨h2, fun j hij hjn => h3 j hij hjn⟩

/-- Witness for C6 at the five-node example graph. -/
theorem claim_C6_walker_total_witness :
    i1B retainScenarioGraph = true ∧
      retainScenarioGraph.walk.2 = true ∧
      retainScenarioGraph.walk.1.Perm
        (List.range retainScenarioGraph.nodes.length) :=
  ⟨by decide,
   (claim_C6_walker_total TestReq retainScenarioGraph (by decide)).1,
   (claim_C6_walker_total TestReq retainScenarioGraph (by decide)).2.1⟩

/-- C2: for a previous Applied graph (satisfying I1, as applied graphs
do) and any next graph, with `affects` symmetric (data-model invariant
I4): the undo graph contains exactly those nodes of `prev` (taken in
reverse insertion order) that no node of `next` affects and whose
requirement can be undone — a `can_undo = false` node is never kept; the
undo graph again satisfies I1 and its walk yields every node only after
its preconditions, i.e. dependents before their dependencies; and on the
spec's teardown scenario (prev = ROOT, A_noUndo(ROOT), B_noUndo(ROOT),
C(A,ROOT), END(B,C); next empty) the emitted undo order is
END, C, ROOT. -/
theorem claim_C2_undo_graph (R : Type) [Inhabited R]
    (affects : R → R → Bool) (canUndo : R → Bool) (next prev : Graph R)
    (hsym : ∀ a b, affects a b = affects b a) (h1 : i1B prev = true) :
    ((extractUndoGraph affects canUndo next prev).nodes.map payloadOf =
      (prev.nodes.reverse.filter (fun nd =>
        !(next.nodes.any (fun m =>
            affects m.requirement nd.requirement)) &&
          canUndo nd.requirement)).map payloadOf) ∧
    i1B (extractUndoGraph affects canUndo next prev) = true ∧
    (∀ (k i : Nat),
      (extractUndoGraph affects canUndo next prev).walk.1[k]? = some i →
      ∀ nd,
        (extractUndoGraph affects canUndo next prev).nodes[i]? = some nd →
        ∀ p ∈ nd.preconditions,
          p ∈ (extractUndoGraph affects canUndo next prev).walk.1.take k) ∧
    (genUndoEntries (extractUndoGraph affectsT canUndoT ⟨[]⟩
        teardownScenarioPrev)).map (fun u => u.requirement) =
      [⟨100, true⟩, ⟨3, true⟩, ⟨0, true⟩] := by
  have hundoI1 : i1B (extractUndoGraph affects canUndo next prev) = true := by
    unfold extractUndoGraph
    exact i1B_retain _ _ (i1B_invert prev h1)
  refine ⟨?_, hundoI1, ?_, by decide⟩
  · rw [extractUndoGraph_payload]
    have hflip : (prev.invert.nodes.filter (fun nd =>
        !(next.nodes.any (fun newNode =>
            affects nd.requirement newNode.requirement)) &&
          canUndo nd.requirement)) =
        (prev.invert.nodes.filter (fun nd =>
          !(next.nodes.any (fun m =>
              affects m.requirement nd.requirement)) &&
            canUndo nd.requirement)) := by
      apply List.filter_congr
      intro nd _
      have : (fun newNode : GraphNode R =>
          affects nd.requirement newNode.requirement) =
          (fun m : GraphNode R => affects m.requirement nd.requirement) := by
        funext m
        exact hsym nd.requirement m.requirement
      rw [this]
    rw [hflip]
    have hq := filter_map_of_map_eq payloadOf
      (fun pr : R × Bool => !(next.nodes.any (fun m =>
          affects m.requirement pr.1)) && canUndo pr.1)
      prev.invert.nodes prev.nodes.reverse
      (by rw [invert_payload, List.map_reverse])
    have hconv1 : prev.invert.nodes.filter (fun nd =>
        !(next.nodes.any (fun m =>
            affects m.requirement nd.requirement)) &&
          canUndo nd.requirement) =
        prev.invert.nodes.filter (fun nd =>
          !(next.nodes.any (fun m =>
              affects m.requirement (payloadOf nd).1)) &&
            canUndo (payloadOf nd).1) :=
      List.filter_congr (fun x _ => rfl)
    have hconv2 : prev.nodes.reverse.filter (fun nd =>
        !(next.nodes.any (fun m =>
            affects m.requirement nd.requirement)) &&
          canUndo nd.requirement) =
        prev.nodes.reverse.filter (fun nd =>
          !(next.nodes.any (fun m =>
              affects m.requirement (payloadOf nd).1)) &&
            canUndo (payloadOf nd).1) :=
      List.filter_congr (fun x _ => rfl)
    rw [hconv1, hconv2]
    exact hq
  · exact (walk_spec_of_i1 _ hundoI1).2.2

/-- Witness for C2 at the spec's teardown scenario. -/
theorem claim_C2_undo_graph_witness :
    (∀ a b, affectsT a b = affectsT b a) ∧
      i1B teardownScenarioPrev = true ∧
      i1B (extractUndoGraph affectsT canUndoT ⟨[]⟩ teardownScenarioPrev) =
        true :=
  ⟨fun a b => Bool.beq_comm, by decide,
   (claim_C2_undo_graph TestReq affectsT canUndoT ⟨[]⟩ teardownScenarioPrev
     (fun a b => Bool.beq_comm) (by decide)).2.1⟩

/-- Witness for C7 at the five-node example graph: the I1 hypothesis
holds there and the involution conclusion follows by the theorem. -/
theorem claim_C7_invert_involution_witness :
    i1B retainScenarioGraph = true ∧
      retainScenarioGraph.invert.invert.nodes.length =
        retainScenarioGraph.nodes.length :=
  ⟨by decide,
   ((claim_C7_invert_involution TestReq retainScenarioGraph).2.2.2
     (by decide)).1⟩
